import Mathlib

/-!
Verification of the `inline` UTF-8 line editor (inline.c).

This file gives a shallow embedding of the buffer / grapheme-index /
line-index model, the default grapheme splitter, the string lists backing
history and suggestions, and the editing operations of inline.c, together
with theorems about the behaviour those operations have.

Conventions of the embedding:
* the byte buffer is a `List Nat` of byte values; `buffer_len` is its length;
* the grapheme index is the list of recorded byte offsets followed by the
  sentinel, so it has `grapheme_count + 1` entries;
* `INLINE_INVALID` (-1) selection is `Option.none`; string-list browse
  indices are `Int` with negative values playing the C role of invalid;
* C loops are written as structural recursion on an explicit bound that is
  at least the number of iterations the C loop can perform (each loop body
  advances its pointer by at least one byte, so a bound of the remaining
  byte count suffices); out-of-fuel branches return the current state, and
  are unreachable at the call sites used here;
* allocation-failure paths of the C code are not modelled: every operation
  is modelled on its successful path.
-/

/-- The grapheme splitter callback: buffer, start position, end position to
bytes consumed, mirroring the C signature `(const char *in, const char *end)`
with the buffer made explicit. -/
def SplitFn : Type := List Nat → Nat → Nat → Nat

/-- Simple list of strings with a current index, mirroring
`inline_stringlist_t` (`items`, `count`, `index`); `count` is
`items.length`, the index is a C `int`. -/
structure inline_stringlist where
  items : List String
  index : Int
deriving DecidableEq, Repr

/-- The editor state fields that the buffer, selection, clipboard,
suggestion and history operations read and write. -/
structure Editor where
  buffer : List Nat
  graphemes : List Nat
  graphemeCount : Nat
  lines : List Nat
  lineCount : Nat
  cursor : Nat
  selection : Option Nat
  clipboard : List Nat
  suggestions : inline_stringlist
  history : inline_stringlist
  maxHistoryLength : Int
  complete : Option (Nat → Option (String × Nat))

/-- Length of a UTF-8 character from its first byte (`inline_utf8length`). -/
def inline_utf8length (b : Nat) : Nat :=
  if b &&& 0x80 = 0x00 then 1
  else if b &&& 0xE0 = 0xC0 then 2
  else if b &&& 0xF0 = 0xE0 then 3
  else if b &&& 0xF8 = 0xF0 then 4
  else 0

/-- Decode UTF-8 at a position into a codepoint (`inline_utf8decode`). -/
def inline_utf8decode (buf : List Nat) (p : Nat) : Nat :=
  let b0 := buf.getD p 0
  match inline_utf8length b0 with
  | 1 => b0
  | 2 => ((b0 &&& 0x1F) <<< 6) ||| (buf.getD (p+1) 0 &&& 0x3F)
  | 3 => ((b0 &&& 0x0F) <<< 12) ||| ((buf.getD (p+1) 0 &&& 0x3F) <<< 6) |||
         (buf.getD (p+2) 0 &&& 0x3F)
  | 4 => ((b0 &&& 0x07) <<< 18) ||| ((buf.getD (p+1) 0 &&& 0x3F) <<< 12) |||
         ((buf.getD (p+2) 0 &&& 0x3F) <<< 6) ||| (buf.getD (p+3) 0 &&& 0x3F)
  | _ => 0

/-- Suffix codepoints that modify the previous codepoint (`suffix_extenders`):
VS15, VS16, the keycap combining mark, and the five skin tone modifiers. -/
def suffix_extenders : List (List Nat) :=
  [[0xEF, 0xB8, 0x8E], [0xEF, 0xB8, 0x8F], [0xE2, 0x83, 0xA3],
   [0xF0, 0x9F, 0x8F, 0xBB], [0xF0, 0x9F, 0x8F, 0xBC], [0xF0, 0x9F, 0x8F, 0xBD],
   [0xF0, 0x9F, 0x8F, 0xBE], [0xF0, 0x9F, 0x8F, 0xBF]]

/-- Joiner codepoints (`joiners`): the zero-width joiner. -/
def joiners : List (List Nat) := [[0xE2, 0x80, 0x8D]]

/-- Match a codepoint at position `p` against a table of byte sequences
(`inline_matchcodepoint`); `0` means no match. -/
def inline_matchcodepoint (table : List (List Nat)) (buf : List Nat) (p e : Nat) : Nat :=
  match table with
  | [] => 0
  | cp :: rest =>
      if cp.length ≤ e - p ∧ (buf.drop p).take cp.length = cp then cp.length
      else inline_matchcodepoint rest buf p e

/-- Check whether a codepoint is extended pictographic
(`inline_isextendedpictographic`). -/
def inline_isextendedpictographic (cp : Nat) : Prop :=
  (0x1F300 ≤ cp ∧ cp ≤ 0x1FAFF) ∨ (0x2600 ≤ cp ∧ cp ≤ 0x26FF) ∨
  (0x2700 ≤ cp ∧ cp ≤ 0x27BF)

instance (cp : Nat) : Decidable (inline_isextendedpictographic cp) :=
  inferInstanceAs (Decidable ((0x1F300 ≤ cp ∧ cp ≤ 0x1FAFF) ∨ (0x2600 ≤ cp ∧ cp ≤ 0x26FF) ∨
    (0x2700 ≤ cp ∧ cp ≤ 0x27BF)))

/-- The combining-mark loop of `inline_graphemesplit`: consume codepoints
whose first byte is in `0xCC`-`0xCF`, tracking the start of the previous
codepoint.  Returns the new position and previous-codepoint start. -/
def splitCombining (buf : List Nat) (e : Nat) : Nat → Nat → Nat → Nat × Nat
  | 0, p, prev => (p, prev)
  | fuel + 1, p, prev =>
      if p < e ∧ 0xCC ≤ buf.getD p 0 ∧ buf.getD p 0 ≤ 0xCF then
        let len := inline_utf8length (buf.getD p 0)
        if len = 0 ∨ e - p < len then (p, prev)
        else splitCombining buf e fuel (p + len) p
      else (p, prev)

/-- The suffix-extender loop of `inline_graphemesplit`: consume matches of
`suffix_extenders` until none matches. -/
def splitSuffixes (buf : List Nat) (e : Nat) : Nat → Nat → Nat → Nat × Nat
  | 0, p, prev => (p, prev)
  | fuel + 1, p, prev =>
      let len := inline_matchcodepoint suffix_extenders buf p e
      if len = 0 then (p, prev)
      else splitSuffixes buf e fuel (p + len) p

/-- The ZWJ loop of `inline_graphemesplit`: a ZWJ is always consumed, and
the following codepoint joins the grapheme only when both the previous and
the next codepoint are extended pictographic; after each join further
suffix extenders are consumed. -/
def splitZwj (buf : List Nat) (e : Nat) : Nat → Nat → Nat → Nat
  | 0, p, _ => p
  | fuel + 1, p, prev =>
      let len := inline_matchcodepoint joiners buf p e
      if len = 0 then p
      else
        let p1 := p + len
        if e ≤ p1 then p1
        else
          let nextLen := inline_utf8length (buf.getD p1 0)
          if nextLen = 0 ∨ e - p1 < nextLen then p1
          else if ¬ (inline_isextendedpictographic (inline_utf8decode buf prev) ∧
                     inline_isextendedpictographic (inline_utf8decode buf p1)) then p1
          else
            let p2 := p1 + nextLen
            let s := splitSuffixes buf e (e - p2 + 1) p2 p1
            splitZwj buf e fuel s.1 s.2

/-- The minimal heuristic grapheme splitter (`inline_graphemesplit`):
consume one base codepoint, then combining marks, then suffix extenders,
then ZWJ sequences.  Returns the byte length of the grapheme at `p`,
clamped to the remaining length on truncated input, `0` when `p` is at or
past `e`. -/
def inline_graphemesplit (buf : List Nat) (p e : Nat) : Nat :=
  if e ≤ p then 0
  else
    let len0 := inline_utf8length (buf.getD p 0)
    let len := if len0 = 0 then 1 else len0
    if e - p < len then e - p
    else
      let p1 := p + len
      let c := splitCombining buf e (e - p1 + 1) p1 p
      let s := splitSuffixes buf e (e - c.1 + 1) c.1 c.2
      let p4 := splitZwj buf e (e - s.1 + 1) s.1 s.2
      p4 - p

/-- One step of the grapheme-recomputation walk of
`inline_recomputegraphemes`: ask the splitter for a length, substitute `1`
for a zero result, clamp to the remaining bytes. -/
def graphemeStep (fn : SplitFn) (buf : List Nat) (p : Nat) : Nat :=
  let len := fn buf p buf.length
  let len1 := if len = 0 then 1 else len
  if buf.length - p < len1 then buf.length - p else len1

/-- The grapheme-recomputation walk of `inline_recomputegraphemes`: record
the current offset and advance by `graphemeStep`.  The bound `fuel`
dominates the iteration count because every step advances by at least one
byte. -/
def graphemeOffsetsGo (fn : SplitFn) (buf : List Nat) : Nat → Nat → List Nat
  | 0, _ => []
  | fuel + 1, p =>
      if p < buf.length then p :: graphemeOffsetsGo fn buf fuel (p + graphemeStep fn buf p)
      else []

/-- The recorded grapheme byte offsets of a buffer, without the sentinel. -/
def graphemeOffsets (fn : SplitFn) (buf : List Nat) : List Nat :=
  graphemeOffsetsGo fn buf buf.length 0

/-- Recompute grapheme locations (`inline_recomputegraphemes`, successful
path): the recorded offsets followed by the sentinel `buffer_len`. -/
def inline_recomputegraphemes (fn : SplitFn) (e : Editor) : Editor :=
  let offs := graphemeOffsets fn e.buffer
  { e with graphemes := offs ++ [e.buffer.length], graphemeCount := offs.length }

/-- Recompute line locations (`inline_recomputelines`, successful path):
line 0 starts at 0, a new line starts after every newline grapheme, and the
sentinel is `buffer_len`. -/
def inline_recomputelines (e : Editor) : Editor :=
  let nls := (List.range e.graphemeCount).filterMap fun g =>
    if e.buffer.getD (e.graphemes.getD g 0) 0 = 10 then some (e.graphemes.getD g 0 + 1)
    else none
  { e with lines := 0 :: nls ++ [e.buffer.length], lineCount := nls.length + 1 }

/-- The byte range of grapheme `i` (`inline_graphemerange`): out-of-bounds
indices, including the end-of-line index, map to the empty range at
`buffer_len`. -/
def inline_graphemerange (e : Editor) (i : Int) : Nat × Nat :=
  if i < 0 ∨ (e.graphemeCount : Int) ≤ i then (e.buffer.length, e.buffer.length)
  else (e.graphemes.getD i.toNat 0, e.graphemes.getD (i.toNat + 1) 0)

/-- The binary search of `inline_findgraphemeindex`, bounded by the width
of the interval. -/
def fgiGo (g : List Nat) (t : Nat) : Nat → Nat → Nat → Nat
  | 0, lo, _ => lo
  | fuel + 1, lo, hi =>
      if lo < hi then
        let mid := (lo + hi) / 2
        if g.getD mid 0 < t then fgiGo g t fuel (mid + 1) hi
        else fgiGo g t fuel lo mid
      else lo

/-- Find the first grapheme index whose start byte is at least `t`
(`inline_findgraphemeindex`). -/
def inline_findgraphemeindex (e : Editor) (t : Nat) : Nat :=
  fgiGo e.graphemes t e.graphemeCount 0 e.graphemeCount

/-- Clamp and store a new cursor position (`inline_setcursorposn`; the
viewport bookkeeping it performs is not part of this model). -/
def inline_setcursorposn (e : Editor) (posn : Int) : Editor :=
  let p1 : Int := if posn < 0 then 0 else posn
  let p2 : Int := if (e.graphemeCount : Int) < p1 then e.graphemeCount else p1
  { e with cursor := p2.toNat }

/-- The byte offset of the cursor used by `inline_insert`: the start of the
cursor grapheme, or `buffer_len` when the cursor is at the end. -/
def insertOffset (e : Editor) : Nat :=
  if e.cursor < e.graphemeCount then e.graphemes.getD e.cursor 0 else e.buffer.length

/-- Insert bytes at the cursor (`inline_insert`, successful path): splice
the bytes in at the cursor's byte offset, recompute both indices, then move
the cursor to the grapheme index found for the post-insert byte offset. -/
def inline_insert (fn : SplitFn) (e : Editor) (bytes : List Nat) : Editor :=
  let off := insertOffset e
  let e1 := inline_recomputelines (inline_recomputegraphemes fn
    { e with buffer := e.buffer.take off ++ bytes ++ e.buffer.drop off })
  inline_setcursorposn e1 (inline_findgraphemeindex e1 (off + bytes.length))

/-- Delete the byte range `[start, ende)` (`inline_deletebytes`): invalid
ranges are rejected up front, otherwise the range is removed and both
indices are recomputed. -/
def inline_deletebytes (fn : SplitFn) (e : Editor) (start ende : Nat) : Editor :=
  if ende ≤ start ∨ e.buffer.length < ende then e
  else
    inline_recomputelines (inline_recomputegraphemes fn
      { e with buffer := e.buffer.take start ++ e.buffer.drop ende })

/-- Delete grapheme `index` (`inline_deletegrapheme`): out-of-range indices
are rejected, otherwise its byte range is deleted. -/
def inline_deletegrapheme (fn : SplitFn) (e : Editor) (index : Int) : Editor :=
  if index < 0 ∨ (e.graphemeCount : Int) ≤ index then e
  else
    inline_deletebytes fn e (e.graphemes.getD index.toNat 0)
      (e.graphemes.getD (index.toNat + 1) 0)

/-- The normalised selection range (`inline_selectionrange`): grapheme
bounds `l ≤ r` and the corresponding start bytes, or `none` when no
selection is active. -/
def inline_selectionrange (e : Editor) : Option (Nat × Nat × Nat × Nat) :=
  match e.selection with
  | none => none
  | some s =>
      let l := min s e.cursor
      let r := max s e.cursor
      some (l, r, (inline_graphemerange e (l : Int)).1, (inline_graphemerange e (r : Int)).1)

/-- Delete the selected text (`inline_deleteselection`): delete the byte
range, clear the selection, move the cursor to the left edge. -/
def inline_deleteselection (fn : SplitFn) (e : Editor) : Editor :=
  match inline_selectionrange e with
  | none => e
  | some (l, _, s, t) =>
      inline_setcursorposn { inline_deletebytes fn e s t with selection := none } (l : Int)

/-- Delete the grapheme under the cursor (`inline_deletecurrent`). -/
def inline_deletecurrent (fn : SplitFn) (e : Editor) : Editor :=
  if e.cursor < e.graphemeCount then inline_deletegrapheme fn e (e.cursor : Int) else e

/-- User backspace (`inline_delete`): delete the selection, else the
grapheme before the cursor, else the grapheme under the cursor. -/
def inline_delete (fn : SplitFn) (e : Editor) : Editor :=
  if e.selection ≠ none then inline_deleteselection fn e
  else if 0 < e.cursor then
    let e1 := inline_deletegrapheme fn e ((e.cursor : Int) - 1)
    inline_setcursorposn e1 ((e1.cursor : Int) - 1)
  else inline_deletecurrent fn e

/-- Clear the buffer (`inline_clear`): empty the buffer, recompute both
indices, reset the cursor.  The `suggestion_shown` render flag it also
clears is not part of this model. -/
def inline_clear (fn : SplitFn) (e : Editor) : Editor :=
  inline_setcursorposn
    (inline_recomputelines (inline_recomputegraphemes fn { e with buffer := [] })) 0

/-- Transpose the two graphemes before/at the cursor (`inline_transpose`,
successful path): a no-op with fewer than two graphemes or the cursor at 0;
otherwise graphemes `a` and `a+1` are swapped byte-wise, where `a` is
`cursor-1` except that a cursor at the very end uses the last two
graphemes; the grapheme index is recomputed (the line index is not), and
the cursor advances only when it was not at the end. -/
def inline_transpose (fn : SplitFn) (e : Editor) : Editor :=
  if e.graphemeCount < 2 ∨ e.cursor = 0 then e
  else
    let a : Nat := if e.graphemeCount ≤ e.cursor then e.graphemeCount - 2 else e.cursor - 1
    let ar := inline_graphemerange e (a : Int)
    let br := inline_graphemerange e ((a : Int) + 1)
    let aLen := ar.2 - ar.1
    let bLen := br.2 - br.1
    let e1 := inline_recomputegraphemes fn
      { e with buffer :=
          e.buffer.take ar.1 ++ (e.buffer.drop br.1).take bLen ++
          (e.buffer.drop ar.1).take aLen ++ e.buffer.drop (ar.1 + bLen + aLen) }
    if e.cursor < e.graphemeCount then inline_setcursorposn e1 ((e1.cursor : Int) + 1) else e1

/-- The transpose operation exactly as the specification words it, for
comparison with `inline_transpose`: unconditionally swap grapheme
`cursor-1` with grapheme `cursor` and move the cursor forward by one. -/
def inline_transpose_claimed (fn : SplitFn) (e : Editor) : Editor :=
  if e.graphemeCount < 2 ∨ e.cursor = 0 then e
  else
    let ar := inline_graphemerange e ((e.cursor : Int) - 1)
    let br := inline_graphemerange e (e.cursor : Int)
    let aLen := ar.2 - ar.1
    let bLen := br.2 - br.1
    let e1 := inline_recomputegraphemes fn
      { e with buffer :=
          e.buffer.take ar.1 ++ (e.buffer.drop br.1).take bLen ++
          (e.buffer.drop ar.1).take aLen ++ e.buffer.drop (ar.1 + bLen + aLen) }
    inline_setcursorposn e1 ((e1.cursor : Int) + 1)

/-- Paste the clipboard at the cursor (`inline_paste`): a no-op on an empty
clipboard, otherwise any active selection is deleted first and the
clipboard bytes are inserted. -/
def inline_paste (fn : SplitFn) (e : Editor) : Editor :=
  if 0 < e.clipboard.length then
    let e1 := if e.selection ≠ none then inline_deleteselection fn e else e
    inline_insert fn e1 e1.clipboard
  else e

/-- Append a copy of a string to a stringlist (`inline_stringlist_add`,
successful path). -/
def inline_stringlist_add (l : inline_stringlist) (s : String) : inline_stringlist :=
  { l with items := l.items ++ [s] }

/-- Remove the first element of a stringlist (`inline_stringlist_popfront`);
the browse index is not adjusted. -/
def inline_stringlist_popfront (l : inline_stringlist) : inline_stringlist :=
  if l.items.length = 0 then l else { l with items := l.items.tail }

/-- The current string of a stringlist (`inline_stringlist_current`). -/
def inline_stringlist_current (l : inline_stringlist) : Option String :=
  if l.items.length = 0 ∨ l.index < 0 ∨ (l.items.length : Int) ≤ l.index then none
  else some (l.items.getD l.index.toNat "")

/-- Advance the current index by `delta` (`inline_stringlist_advance`).
With wrapping the C code computes `(index + delta + count) % count` with
the truncated `%` of C (`Int.tmod`); without wrapping the result is clamped
to `[0, count-1]`. -/
def inline_stringlist_advance (l : inline_stringlist) (delta : Int) (wrap : Bool) : inline_stringlist :=
  if l.items.length = 0 ∨ l.index < 0 then l
  else
    let c : Int := l.items.length
    let i0 : Int := if c ≤ l.index then c - 1 else l.index
    if wrap then { l with index := Int.tmod (i0 + delta + c) c }
    else
      let i1 := i0 + delta
      let i2 := if i1 < 0 then 0 else i1
      let i3 := if c ≤ i2 then c - 1 else i2
      { l with index := i3 }

/-- Whether the cursor is at the end of the buffer (`inline_atend`). -/
def inline_atend (e : Editor) : Prop := e.cursor = e.graphemeCount

instance (e : Editor) : Decidable (inline_atend e) :=
  inferInstanceAs (Decidable (e.cursor = e.graphemeCount))

/-- Run the completion enumerator: starting from index value `idx`, collect
the suffixes the host returns until it returns null.  `none` means the host
did not return null within `fuel` calls (the C loop simply keeps calling). -/
def enumSeq (host : Nat → Option (String × Nat)) : Nat → Nat → Option (List String)
  | 0, _ => none
  | fuel + 1, idx =>
      match host idx with
      | none => some []
      | some (s, idx1) => (enumSeq host fuel idx1).map (s :: ·)

/-- The gathering loop of `inline_generatesuggestions`: repeatedly call the
host enumerator and append each returned suffix to the suggestion list. -/
def gatherSuggestions (host : Nat → Option (String × Nat)) :
    Nat → Nat → inline_stringlist → inline_stringlist
  | 0, _, l => l
  | fuel + 1, idx, l =>
      match host idx with
      | none => l
      | some (s, idx1) => gatherSuggestions host fuel idx1 (inline_stringlist_add l s)

/-- Generate suggestions (`inline_generatesuggestions`): nothing happens
without a callback; otherwise the list is cleared, and only with no active
selection and the cursor at the end of the buffer is the host enumerator
run, with the iteration index starting at 0; if any suggestion was produced
the current index becomes 0.  `fuel` bounds the number of host calls. -/
def inline_generatesuggestions (fuel : Nat) (e : Editor) : Editor :=
  match e.complete with
  | none => e
  | some host =>
      let e1 := { e with suggestions := ⟨[], -1⟩ }
      if e1.selection ≠ none then e1
      else if inline_atend e1 then
        let sugg := gatherSuggestions host fuel 0 e1.suggestions
        let sugg := if 0 < sugg.items.length then { sugg with index := 0 } else sugg
        { e1 with suggestions := sugg }
      else e1

/-- The current suggestion (`inline_currentsuggestion`). -/
def inline_currentsuggestion (e : Editor) : Option String :=
  if e.suggestions.items.length = 0 then none
  else inline_stringlist_current e.suggestions

/-- Advance through the suggestions with wrap-around
(`inline_advancesuggestions`). -/
def inline_advancesuggestions (e : Editor) (delta : Int) : Editor :=
  { e with suggestions := inline_stringlist_advance e.suggestions delta true }

/-- The trimming loop of `inline_sethistorylength`: pop the front while the
count exceeds the (positive) cap. -/
def trimHistoryGo : Nat → inline_stringlist → Int → inline_stringlist
  | 0, l, _ => l
  | fuel + 1, l, m =>
      if m < (l.items.length : Int) then trimHistoryGo fuel (inline_stringlist_popfront l) m
      else l

/-- Set the history length (`inline_sethistorylength`): a positive cap trims
excess entries from the front, zero clears the history entirely, negative
is unlimited. -/
def inline_sethistorylength (e : Editor) (maxlen : Int) : Editor :=
  let e1 := { e with maxHistoryLength := maxlen }
  if 0 < maxlen then
    { e1 with history := trimHistoryGo e1.history.items.length e1.history maxlen }
  else if maxlen = 0 then { e1 with history := ⟨[], -1⟩ }
  else e1

/-- Add an entry to the history (`inline_addhistory`): null or empty
entries, a disabled history (`max_length = 0`), and entries equal to the
most recent one are rejected; otherwise the entry is appended and, when a
positive cap is exceeded, the front entry is removed. -/
def inline_addhistory (e : Editor) (entry : Option String) : Bool × Editor :=
  match entry with
  | none => (false, e)
  | some s =>
      if s.isEmpty ∨ e.maxHistoryLength = 0 then (false, e)
      else if e.history.items.getLast? = some s then (false, e)
      else
        let h1 := inline_stringlist_add e.history s
        let h2 := if 0 < e.maxHistoryLength ∧ e.maxHistoryLength < (h1.items.length : Int)
                  then inline_stringlist_popfront h1 else h1
        (true, { e with history := h2 })

/-- UTF-8 bytes of a string, as used when a history entry is loaded back
into the buffer. -/
def strBytes (s : String) : List Nat := s.toUTF8.toList.map (fun b => b.toNat)

/-- Advance the history browse position and load the selected entry
(`inline_advancehistory`): entering history mode selects the last entry;
the buffer is cleared and replaced by the selected entry, or left cleared
with history mode exited when the index is invalid. -/
def inline_advancehistory (fn : SplitFn) (e : Editor) (delta : Int) : Editor :=
  if e.history.items.length = 0 then e
  else
    let e1 := if e.history.index = -1
              then { e with history := { e.history with index := (e.history.items.length : Int) - 1 } }
              else { e with history := inline_stringlist_advance e.history delta false }
    let s := inline_stringlist_current e1.history
    let e2 := inline_clear fn e1
    match s with
    | some str => inline_insert fn e2 (strBytes str)
    | none => { e2 with history := { e2.history with index := -1 } }

/-- The colour escape sequence produced by `inline_emitcolor`: `none` when
nothing is written (negative code), otherwise the emitted string. -/
def inline_emitcolor (color : Int) : Option String :=
  if color < 0 then none
  else
    let c := color.toNat
    if c < 16 then
      let base := if c < 8 then 30 else 90
      some ("\x1b[" ++ toString (base + (c &&& 7)) ++ "m")
    else if c ≤ 255 then
      some ("\x1b[38;5;" ++ toString c ++ "m")
    else
      some ("\x1b[38;2;" ++ toString ((c >>> 16) &&& 0xFF) ++ ";" ++
            toString ((c >>> 8) &&& 0xFF) ++ ";" ++ toString (c &&& 0xFF) ++ "m")

/-- A history operation: an `inline_addhistory` or an
`inline_sethistorylength` call. -/
inductive HistOp where
  | add : Option String → HistOp
  | setlen : Int → HistOp

/-- Apply one history operation to the editor. -/
def applyHistOp (e : Editor) : HistOp → Editor
  | .add s => (inline_addhistory e s).2
  | .setlen m => inline_sethistorylength e m

/-- Apply a sequence of history operations to the editor. -/
def applyHistOps (e : Editor) (ops : List HistOp) : Editor :=
  ops.foldl applyHistOp e

/-- A structurally recursive decision procedure for `List.Chain'`, used so
that concrete invariant checks reduce inside the kernel. -/
def decChain' {α : Type} (r : α → α → Prop) [DecidableRel r] : ∀ l : List α, Decidable (List.Chain' r l)
  | [] => isTrue (by simp)
  | [a] => isTrue (by simp)
  | a :: b :: t =>
      match decChain' r (b :: t), inferInstanceAs (Decidable (r a b)) with
      | isTrue h, isTrue hab => isTrue (List.chain'_cons.mpr ⟨hab, h⟩)
      | isFalse h, _ => isFalse (fun hc => h (List.chain'_cons.mp hc).2)
      | _, isFalse hab => isFalse (fun hc => hab (List.chain'_cons.mp hc).1)

/-- The grapheme-index invariant stated by the specification: strictly
monotonically increasing recorded offsets, first offset 0 on a non-empty
buffer, sentinel equal to `buffer_len`. -/
def graphemeInv (e : Editor) : Prop :=
  List.Chain' (· < ·) e.graphemes ∧
  (e.buffer ≠ [] → e.graphemes.head? = some 0) ∧
  e.graphemes.getD e.graphemeCount 0 = e.buffer.length

instance (e : Editor) : Decidable (graphemeInv e) :=
  haveI : Decidable (List.Chain' (· < ·) e.graphemes) := decChain' (· < ·) e.graphemes
  inferInstanceAs (Decidable (List.Chain' (· < ·) e.graphemes ∧
    (e.buffer ≠ [] → e.graphemes.head? = some 0) ∧
    e.graphemes.getD e.graphemeCount 0 = e.buffer.length))

/-- A structurally consistent editor state: the grapheme invariant holds,
the grapheme list has exactly `grapheme_count + 1` entries, and cursor and
selection are grapheme positions in `[0, grapheme_count]`. -/
def ValidEditor (e : Editor) : Prop :=
  graphemeInv e ∧ e.graphemes.length = e.graphemeCount + 1 ∧
  e.cursor ≤ e.graphemeCount ∧ e.selection.getD 0 ≤ e.graphemeCount

instance (e : Editor) : Decidable (ValidEditor e) :=
  inferInstanceAs (Decidable (graphemeInv e ∧ e.graphemes.length = e.graphemeCount + 1 ∧
    e.cursor ≤ e.graphemeCount ∧ e.selection.getD 0 ≤ e.graphemeCount))

/-- The history invariant stated by the specification: the count never
exceeds a positive `max_length`, and no two adjacent entries are equal. -/
def histInv (e : Editor) : Prop :=
  (0 < e.maxHistoryLength → (e.history.items.length : Int) ≤ e.maxHistoryLength) ∧
  List.Chain' (· ≠ ·) e.history.items

instance (e : Editor) : Decidable (histInv e) :=
  haveI : Decidable (List.Chain' (· ≠ ·) e.history.items) :=
    decChain' (· ≠ ·) e.history.items
  inferInstanceAs (Decidable ((0 < e.maxHistoryLength →
    (e.history.items.length : Int) ≤ e.maxHistoryLength) ∧
    List.Chain' (· ≠ ·) e.history.items))

/-- An editor with an empty buffer and all indices in their reset state. -/
def baseEditor : Editor :=
  { buffer := [], graphemes := [0], graphemeCount := 0, lines := [0], lineCount := 1,
    cursor := 0, selection := none, clipboard := [], suggestions := ⟨[], -1⟩,
    history := ⟨[], -1⟩, maxHistoryLength := -1, complete := none }

/-- The editor state reached after typing `ab` (two ASCII graphemes) with
the cursor at the end of the buffer. -/
def editorAB : Editor :=
  { baseEditor with buffer := [97, 98], graphemes := [0, 1, 2], graphemeCount := 2,
                    lines := [0, 2], cursor := 2 }

/-- The editor state whose buffer holds the two bytes `0xCC 0x80` of the
combining grave accent U+0300, a single grapheme, with the cursor at 0. -/
def editorCombining : Editor :=
  { baseEditor with buffer := [0xCC, 0x80], graphemes := [0, 2], graphemeCount := 1,
                    lines := [0, 2], cursor := 0 }

/-- A host-installed grapheme splitter that splits the three-byte buffer
`abc` into single bytes but treats any other buffer as one grapheme. -/
def mergingSplit : SplitFn :=
  fun buf p _ => if buf = [97, 98, 99] then 1 else buf.length - p

/-- The editor state for the buffer `abc` under `mergingSplit`, with the
cursor at the end of the buffer. -/
def editorABC : Editor :=
  { baseEditor with buffer := [97, 98, 99], graphemes := [0, 1, 2, 3], graphemeCount := 3,
                    lines := [0, 3], cursor := 3 }

@[simp] theorem recomputegraphemes_buffer (fn : SplitFn) (e : Editor) :
    (inline_recomputegraphemes fn e).buffer = e.buffer := rfl

@[simp] theorem recomputegraphemes_graphemes (fn : SplitFn) (e : Editor) :
    (inline_recomputegraphemes fn e).graphemes = graphemeOffsets fn e.buffer ++ [e.buffer.length] := rfl

@[simp] theorem recomputegraphemes_count (fn : SplitFn) (e : Editor) :
    (inline_recomputegraphemes fn e).graphemeCount = (graphemeOffsets fn e.buffer).length := rfl

@[simp] theorem recomputegraphemes_cursor (fn : SplitFn) (e : Editor) :
    (inline_recomputegraphemes fn e).cursor = e.cursor := rfl

@[simp] theorem recomputegraphemes_selection (fn : SplitFn) (e : Editor) :
    (inline_recomputegraphemes fn e).selection = e.selection := rfl

@[simp] theorem recomputegraphemes_clipboard (fn : SplitFn) (e : Editor) :
    (inline_recomputegraphemes fn e).clipboard = e.clipboard := rfl

@[simp] theorem recomputegraphemes_history (fn : SplitFn) (e : Editor) :
    (inline_recomputegraphemes fn e).history = e.history := rfl

@[simp] theorem recomputelines_buffer (e : Editor) :
    (inline_recomputelines e).buffer = e.buffer := rfl

@[simp] theorem recomputelines_graphemes (e : Editor) :
    (inline_recomputelines e).graphemes = e.graphemes := rfl

@[simp] theorem recomputelines_count (e : Editor) :
    (inline_recomputelines e).graphemeCount = e.graphemeCount := rfl

@[simp] theorem recomputelines_cursor (e : Editor) :
    (inline_recomputelines e).cursor = e.cursor := rfl

@[simp] theorem recomputelines_selection (e : Editor) :
    (inline_recomputelines e).selection = e.selection := rfl

@[simp] theorem recomputelines_clipboard (e : Editor) :
    (inline_recomputelines e).clipboard = e.clipboard := rfl

@[simp] theorem recomputelines_history (e : Editor) :
    (inline_recomputelines e).history = e.history := rfl

@[simp] theorem setcursorposn_buffer (e : Editor) (n : Int) :
    (inline_setcursorposn e n).buffer = e.buffer := rfl

@[simp] theorem setcursorposn_graphemes (e : Editor) (n : Int) :
    (inline_setcursorposn e n).graphemes = e.graphemes := rfl

@[simp] theorem setcursorposn_count (e : Editor) (n : Int) :
    (inline_setcursorposn e n).graphemeCount = e.graphemeCount := rfl

@[simp] theorem setcursorposn_selection (e : Editor) (n : Int) :
    (inline_setcursorposn e n).selection = e.selection := rfl

@[simp] theorem setcursorposn_history (e : Editor) (n : Int) :
    (inline_setcursorposn e n).history = e.history := rfl

/-- The clamp of `inline_setcursorposn` is the identity on in-range
positions. -/
theorem setcursorposn_cursor_of_le (e : Editor) (n : Nat) (h : n ≤ e.graphemeCount) :
    (inline_setcursorposn e (n : Int)).cursor = n := by
  unfold inline_setcursorposn
  dsimp only
  have h0 : ¬ ((n : Int) < 0) := by omega
  rw [if_neg h0]
  have h1 : ¬ ((e.graphemeCount : Int) < (n : Int)) := by omega
  rw [if_neg h1]
  omega

/-- The clamped cursor of `inline_setcursorposn` in general. -/
theorem setcursorposn_cursor (e : Editor) (n : Int) :
    (inline_setcursorposn e n).cursor = if n < 0 then 0
      else if (e.graphemeCount : Int) < n then e.graphemeCount else n.toNat := by
  unfold inline_setcursorposn
  dsimp only
  by_cases h0 : n < 0
  · rw [if_pos h0, if_pos h0, if_neg (by omega : ¬ (e.graphemeCount : Int) < 0)]
    rfl
  · rw [if_neg h0, if_neg h0]
    by_cases h1 : (e.graphemeCount : Int) < n
    · rw [if_pos h1, if_pos h1]
      omega
    · rw [if_neg h1, if_neg h1]

/-- A grapheme-walk step is at least one byte. -/
theorem graphemeStep_pos (fn : SplitFn) (buf : List Nat) (p : Nat) (h : p < buf.length) :
    1 ≤ graphemeStep fn buf p := by
  unfold graphemeStep
  dsimp only
  split_ifs <;> omega

/-- A grapheme-walk step never passes the end of the buffer. -/
theorem graphemeStep_le (fn : SplitFn) (buf : List Nat) (p : Nat) (h : p < buf.length) :
    graphemeStep fn buf p ≤ buf.length - p := by
  unfold graphemeStep
  dsimp only
  split_ifs <;> omega

theorem graphemeOffsetsGo_nil (fn : SplitFn) (buf : List Nat) (fuel p : Nat)
    (h : ¬ p < buf.length) : graphemeOffsetsGo fn buf fuel p = [] := by
  cases fuel <;> simp [graphemeOffsetsGo, h]

theorem graphemeOffsetsGo_cons (fn : SplitFn) (buf : List Nat) (fuel p : Nat)
    (h : p < buf.length) :
    graphemeOffsetsGo fn buf (fuel + 1) p =
      p :: graphemeOffsetsGo fn buf fuel (p + graphemeStep fn buf p) := by
  simp [graphemeOffsetsGo, h]

theorem graphemeOffsetsGo_length (fn : SplitFn) (buf : List Nat) :
    ∀ fuel p, (graphemeOffsetsGo fn buf fuel p).length ≤ fuel := by
  intro fuel
  induction fuel with
  | zero => intro p; simp [graphemeOffsetsGo]
  | succ fuel ih =>
      intro p
      by_cases h : p < buf.length
      · rw [graphemeOffsetsGo_cons fn buf fuel p h]
        simpa using ih (p + graphemeStep fn buf p)
      · rw [graphemeOffsetsGo_nil fn buf (fuel + 1) p h]; simp

/-- Every recorded offset of the grapheme walk is strictly below the offset
that follows it, with the sentinel closing the list: the walk advances at
every iteration. -/
theorem graphemeOffsetsGo_chain (fn : SplitFn) (buf : List Nat) :
    ∀ fuel p, buf.length ≤ p + fuel →
      List.Chain' (· < ·) (graphemeOffsetsGo fn buf fuel p ++ [buf.length]) := by
  intro fuel
  induction fuel with
  | zero =>
      intro p hp
      rw [graphemeOffsetsGo_nil fn buf 0 p (by omega)]
      simp
  | succ fuel ih =>
      intro p hp
      by_cases h : p < buf.length
      · rw [graphemeOffsetsGo_cons fn buf fuel p h, List.cons_append, List.chain'_cons']
        have hstep := graphemeStep_pos fn buf p h
        refine ⟨?_, ih (p + graphemeStep fn buf p) (by omega)⟩
        intro y hy
        by_cases h2 : p + graphemeStep fn buf p < buf.length
        · obtain ⟨fuel2, rfl⟩ : ∃ f2, fuel = f2 + 1 := ⟨fuel - 1, by omega⟩
          rw [graphemeOffsetsGo_cons fn buf fuel2 _ h2] at hy
          simp at hy
          omega
        · rw [graphemeOffsetsGo_nil fn buf fuel _ h2] at hy
          simp at hy
          omega
      · rw [graphemeOffsetsGo_nil fn buf (fuel + 1) p h]
        simp

/-- All byte offsets recorded by the grapheme walk, closed by the sentinel,
are strictly increasing. -/
theorem graphemeOffsets_chain (fn : SplitFn) (buf : List Nat) :
    List.Chain' (· < ·) (graphemeOffsets fn buf ++ [buf.length]) :=
  graphemeOffsetsGo_chain fn buf buf.length 0 (by omega)

/-- On a non-empty buffer the first recorded grapheme offset is 0. -/
theorem graphemeOffsets_head (fn : SplitFn) (buf : List Nat) (h : buf ≠ []) :
    (graphemeOffsets fn buf).head? = some 0 := by
  unfold graphemeOffsets
  have hl : 0 < buf.length := List.length_pos.mpr h
  obtain ⟨f2, hf⟩ : ∃ f2, buf.length = f2 + 1 := ⟨buf.length - 1, by omega⟩
  rw [hf, graphemeOffsetsGo_cons fn buf f2 0 (by omega)]
  rfl

/-- The grapheme walk records at most one offset per byte of the buffer. -/
theorem graphemeOffsets_length_le (fn : SplitFn) (buf : List Nat) :
    (graphemeOffsets fn buf).length ≤ buf.length :=
  graphemeOffsetsGo_length fn buf buf.length 0

theorem getD_append_length (l : List Nat) (x : Nat) (d : Nat) :
    (l ++ [x]).getD l.length d = x := by
  induction l with
  | nil => rfl
  | cons a t ih => simpa using ih

/-- Strict monotonicity of indexed reads of a strictly increasing list. -/
theorem chain'_lt_getD (l : List Nat) (hl : List.Chain' (· < ·) l) {i j : Nat}
    (hij : i < j) (hj : j < l.length) : l.getD i 0 < l.getD j 0 := by
  have hp : l.Pairwise (· < ·) := List.chain'_iff_pairwise.mp hl
  have hi : i < l.length := lt_trans hij hj
  rw [List.getD_eq_getElem l 0 hi, List.getD_eq_getElem l 0 hj]
  exact List.pairwise_iff_getElem.mp hp i j hi hj hij

/-- Monotonicity of indexed reads of a strictly increasing list. -/
theorem chain'_le_getD (l : List Nat) (hl : List.Chain' (· < ·) l) {i j : Nat}
    (hij : i ≤ j) (hj : j < l.length) : l.getD i 0 ≤ l.getD j 0 := by
  rcases Nat.lt_or_ge i j with h | h
  · exact le_of_lt (chain'_lt_getD l hl h hj)
  · have : i = j := by omega
    rw [this]

/-- After `inline_recomputegraphemes` the grapheme invariant of the
specification holds, whatever splitter is installed. -/
theorem graphemeInv_recompute (fn : SplitFn) (e : Editor) :
    graphemeInv (inline_recomputegraphemes fn e) := by
  refine ⟨?_, ?_, ?_⟩
  · rw [recomputegraphemes_graphemes]
    exact graphemeOffsets_chain fn e.buffer
  · intro hne
    rw [recomputegraphemes_buffer] at hne
    rw [recomputegraphemes_graphemes]
    have h0 := graphemeOffsets_head fn e.buffer hne
    cases hoffs : graphemeOffsets fn e.buffer with
    | nil => rw [hoffs] at h0; simp at h0
    | cons a t =>
        rw [hoffs] at h0
        simp at h0
        simp [h0]
  · rw [recomputegraphemes_graphemes, recomputegraphemes_count, recomputegraphemes_buffer]
    exact getD_append_length _ _ _

/-- The grapheme invariant only looks at the buffer, the grapheme list and
the grapheme count. -/
theorem graphemeInv_of_eq (e f : Editor) (h : graphemeInv e) (hb : f.buffer = e.buffer)
    (hg : f.graphemes = e.graphemes) (hc : f.graphemeCount = e.graphemeCount) :
    graphemeInv f := by
  unfold graphemeInv at h ⊢
  rw [hb, hg, hc]
  exact h

/-- The grapheme invariant is untouched by `inline_setcursorposn`. -/
theorem graphemeInv_setcursorposn (x : Editor) (n : Int) :
    graphemeInv (inline_setcursorposn x n) ↔ graphemeInv x := by
  unfold graphemeInv
  rw [setcursorposn_buffer, setcursorposn_graphemes, setcursorposn_count]

/-- The grapheme invariant is untouched by `inline_recomputelines`. -/
theorem graphemeInv_recomputelines (x : Editor) :
    graphemeInv (inline_recomputelines x) ↔ graphemeInv x := by
  unfold graphemeInv
  rw [recomputelines_buffer, recomputelines_graphemes, recomputelines_count]

/-- `inline_insert` always recomputes the grapheme index, so it establishes
the grapheme invariant unconditionally. -/
theorem inline_insert_graphemeInv (fn : SplitFn) (e : Editor) (bytes : List Nat) :
    graphemeInv (inline_insert fn e bytes) := by
  unfold inline_insert
  rw [graphemeInv_setcursorposn, graphemeInv_recomputelines]
  exact graphemeInv_recompute fn _

/-- `inline_clear` always recomputes the grapheme index. -/
theorem inline_clear_graphemeInv (fn : SplitFn) (e : Editor) :
    graphemeInv (inline_clear fn e) := by
  unfold inline_clear
  rw [graphemeInv_setcursorposn, graphemeInv_recomputelines]
  exact graphemeInv_recompute fn _

/-- `inline_deletebytes` either rejects the range or recomputes. -/
theorem inline_deletebytes_graphemeInv (fn : SplitFn) (e : Editor) (s t : Nat)
    (h : graphemeInv e) : graphemeInv (inline_deletebytes fn e s t) := by
  unfold inline_deletebytes
  split
  · exact h
  · rw [graphemeInv_recomputelines]
    exact graphemeInv_recompute fn _

/-- `inline_deletegrapheme` either rejects the index or deletes bytes. -/
theorem inline_deletegrapheme_graphemeInv (fn : SplitFn) (e : Editor) (i : Int)
    (h : graphemeInv e) : graphemeInv (inline_deletegrapheme fn e i) := by
  unfold inline_deletegrapheme
  split
  · exact h
  · exact inline_deletebytes_graphemeInv fn e _ _ h

/-- `inline_deleteselection` preserves the grapheme invariant. -/
theorem inline_deleteselection_graphemeInv (fn : SplitFn) (e : Editor)
    (h : graphemeInv e) : graphemeInv (inline_deleteselection fn e) := by
  unfold inline_deleteselection
  cases hs : inline_selectionrange e with
  | none => exact h
  | some r =>
      obtain ⟨l, r2, s, t⟩ := r
      rw [graphemeInv_setcursorposn]
      exact inline_deletebytes_graphemeInv fn e s t h

/-- `inline_transpose` either does nothing or recomputes. -/
theorem inline_transpose_graphemeInv (fn : SplitFn) (e : Editor)
    (h : graphemeInv e) : graphemeInv (inline_transpose fn e) := by
  unfold inline_transpose
  split
  · exact h
  · dsimp only
    split
    · rw [graphemeInv_setcursorposn]
      exact graphemeInv_recompute fn _
    · exact graphemeInv_recompute fn _

/-- `inline_paste` either does nothing or ends in an insertion. -/
theorem inline_paste_graphemeInv (fn : SplitFn) (e : Editor)
    (h : graphemeInv e) : graphemeInv (inline_paste fn e) := by
  unfold inline_paste
  split
  · exact inline_insert_graphemeInv fn _ _
  · exact h

/-- `inline_advancehistory` either does nothing or clears the buffer and
possibly inserts the selected history entry. -/
theorem inline_advancehistory_graphemeInv (fn : SplitFn) (e : Editor) (d : Int)
    (h : graphemeInv e) : graphemeInv (inline_advancehistory fn e d) := by
  unfold inline_advancehistory
  split
  · exact h
  · dsimp only
    split
    · exact inline_insert_graphemeInv fn _ _
    · exact inline_clear_graphemeInv fn _

/-- C1: after every buffer mutation of the editor — insertion, byte-range
deletion, grapheme deletion, clearing, transposition, pasting and loading a
history entry — performed on a state that satisfied it before (allocation
failures are not modelled), the grapheme index invariant holds: the
recorded offsets are strictly monotonically increasing, the first offset is
0 on a non-empty buffer, and the sentinel entry equals `buffer_len`. -/
theorem inline_mutations_graphemeInv (fn : SplitFn) (e : Editor) (h : graphemeInv e) :
    (∀ bytes, graphemeInv (inline_insert fn e bytes)) ∧
    (∀ s t, graphemeInv (inline_deletebytes fn e s t)) ∧
    (∀ i, graphemeInv (inline_deletegrapheme fn e i)) ∧
    graphemeInv (inline_clear fn e) ∧
    graphemeInv (inline_transpose fn e) ∧
    graphemeInv (inline_paste fn e) ∧
    (∀ d, graphemeInv (inline_advancehistory fn e d)) :=
  ⟨fun bytes => inline_insert_graphemeInv fn e bytes,
   fun s t => inline_deletebytes_graphemeInv fn e s t h,
   fun i => inline_deletegrapheme_graphemeInv fn e i h,
   inline_clear_graphemeInv fn e,
   inline_transpose_graphemeInv fn e h,
   inline_paste_graphemeInv fn e h,
   fun d => inline_advancehistory_graphemeInv fn e d h⟩

/-- Witness for C1: a concrete editor state that satisfies the invariant,
instantiating the preservation theorem on an insertion of `hi`. -/
theorem inline_mutations_graphemeInv_witness :
    graphemeInv baseEditor ∧
    graphemeInv (inline_insert inline_graphemesplit baseEditor [104, 105]) :=
  ⟨by decide,
   (inline_mutations_graphemeInv inline_graphemesplit baseEditor (by decide)).1 [104, 105]⟩

/-- C10: `inline_deletebytes` is total at its interface: an empty-or-invalid
range (`start ≥ end` or `end > buffer_len`) returns without modifying the
buffer, the grapheme index, the line index, or the cursor. -/
theorem inline_deletebytes_total (fn : SplitFn) (e : Editor) (s t : Nat)
    (h : t ≤ s ∨ e.buffer.length < t) :
    (inline_deletebytes fn e s t).buffer = e.buffer ∧
    (inline_deletebytes fn e s t).graphemes = e.graphemes ∧
    (inline_deletebytes fn e s t).graphemeCount = e.graphemeCount ∧
    (inline_deletebytes fn e s t).lines = e.lines ∧
    (inline_deletebytes fn e s t).lineCount = e.lineCount ∧
    (inline_deletebytes fn e s t).cursor = e.cursor := by
  unfold inline_deletebytes
  rw [if_pos h]
  exact ⟨rfl, rfl, rfl, rfl, rfl, rfl⟩

/-- Witness for C10: a call with `start = 5 ≥ end = 3` on a concrete editor
leaves every component unchanged. -/
theorem inline_deletebytes_total_witness :
    (inline_deletebytes inline_graphemesplit editorAB 5 3).buffer = editorAB.buffer ∧
    (inline_deletebytes inline_graphemesplit editorAB 5 3).graphemes = editorAB.graphemes ∧
    (inline_deletebytes inline_graphemesplit editorAB 5 3).graphemeCount = editorAB.graphemeCount ∧
    (inline_deletebytes inline_graphemesplit editorAB 5 3).lines = editorAB.lines ∧
    (inline_deletebytes inline_graphemesplit editorAB 5 3).lineCount = editorAB.lineCount ∧
    (inline_deletebytes inline_graphemesplit editorAB 5 3).cursor = editorAB.cursor :=
  inline_deletebytes_total inline_graphemesplit editorAB 5 3 (by decide)

/-- A codepoint-table match never exceeds the remaining byte count. -/
theorem inline_matchcodepoint_le (table : List (List Nat)) (buf : List Nat) (p e : Nat) :
    inline_matchcodepoint table buf p e ≤ e - p := by
  induction table with
  | nil => simp [inline_matchcodepoint]
  | cons cp rest ih =>
      unfold inline_matchcodepoint
      split
      · rename_i h
        exact h.1
      · exact ih

/-- The combining-mark loop never moves backwards and never passes `e`. -/
theorem splitCombining_bounds (buf : List Nat) (e : Nat) :
    ∀ fuel p prev, p ≤ e →
      p ≤ (splitCombining buf e fuel p prev).1 ∧ (splitCombining buf e fuel p prev).1 ≤ e := by
  intro fuel
  induction fuel with
  | zero => intro p prev hp; exact ⟨le_refl p, hp⟩
  | succ fuel ih =>
      intro p prev hp
      unfold splitCombining
      split
      · dsimp only
        split
        · exact ⟨le_refl p, hp⟩
        · rename_i hcond hlen
          have h1 : inline_utf8length (buf.getD p 0) ≤ e - p := by omega
          have h2 : p + inline_utf8length (buf.getD p 0) ≤ e := by omega
          have := ih (p + inline_utf8length (buf.getD p 0)) p h2
          exact ⟨le_trans (by omega) this.1, this.2⟩
      · exact ⟨le_refl p, hp⟩

/-- The suffix-extender loop never moves backwards and never passes `e`. -/
theorem splitSuffixes_bounds (buf : List Nat) (e : Nat) :
    ∀ fuel p prev, p ≤ e →
      p ≤ (splitSuffixes buf e fuel p prev).1 ∧ (splitSuffixes buf e fuel p prev).1 ≤ e := by
  intro fuel
  induction fuel with
  | zero => intro p prev hp; exact ⟨le_refl p, hp⟩
  | succ fuel ih =>
      intro p prev hp
      unfold splitSuffixes
      dsimp only
      split
      · exact ⟨le_refl p, hp⟩
      · have hm := inline_matchcodepoint_le suffix_extenders buf p e
        have h2 : p + inline_matchcodepoint suffix_extenders buf p e ≤ e := by omega
        have := ih (p + inline_matchcodepoint suffix_extenders buf p e) p h2
        exact ⟨le_trans (by omega) this.1, this.2⟩

/-- The ZWJ loop never moves backwards and never passes `e`. -/
theorem splitZwj_bounds (buf : List Nat) (e : Nat) :
    ∀ fuel p prev, p ≤ e →
      p ≤ splitZwj buf e fuel p prev ∧ splitZwj buf e fuel p prev ≤ e := by
  intro fuel
  induction fuel with
  | zero => intro p prev hp; exact ⟨le_refl p, hp⟩
  | succ fuel ih =>
      intro p prev hp
      unfold splitZwj
      dsimp only
      have hm := inline_matchcodepoint_le joiners buf p e
      split
      · exact ⟨le_refl p, hp⟩
      · split
        · rename_i hlen hle
          exact ⟨by omega, by omega⟩
        · split
          · rename_i hlen hle hnext
            exact ⟨by omega, by omega⟩
          · split
            · rename_i hlen hle hnext hpic
              exact ⟨by omega, by omega⟩
            · rename_i hlen hle hnext hpic
              have hnl : inline_utf8length (buf.getD (p + inline_matchcodepoint joiners buf p e) 0) ≤
                  e - (p + inline_matchcodepoint joiners buf p e) := by omega
              have hp2 : p + inline_matchcodepoint joiners buf p e +
                  inline_utf8length (buf.getD (p + inline_matchcodepoint joiners buf p e) 0) ≤ e := by
                omega
              have hs := splitSuffixes_bounds buf e
                (e - (p + inline_matchcodepoint joiners buf p e +
                  inline_utf8length (buf.getD (p + inline_matchcodepoint joiners buf p e) 0)) + 1)
                (p + inline_matchcodepoint joiners buf p e +
                  inline_utf8length (buf.getD (p + inline_matchcodepoint joiners buf p e) 0))
                (p + inline_matchcodepoint joiners buf p e) hp2
              exact ⟨le_trans (by omega) (le_trans hs.1 (ih _ _ hs.2).1), (ih _ _ hs.2).2⟩

/-- C8: on every input position strictly before the end pointer the default
splitter returns at least 1 byte and at most the remaining length, even on
malformed or truncated UTF-8; and for any splitter the
grapheme-recomputation walk — which substitutes 1 for a zero-length result
and clamps to the remaining bytes — advances at every iteration (the
recorded offsets are strictly increasing up to the sentinel) and performs
at most `buffer_len` iterations, so it terminates on every buffer. -/
theorem inline_graphemesplit_progress :
    (∀ buf p e, p < e →
        1 ≤ inline_graphemesplit buf p e ∧ inline_graphemesplit buf p e ≤ e - p) ∧
    (∀ fn : SplitFn, ∀ buf : List Nat,
        List.Chain' (· < ·) (graphemeOffsets fn buf ++ [buf.length]) ∧
        (graphemeOffsets fn buf).length ≤ buf.length) := by
  constructor
  · intro buf p e hpe
    unfold inline_graphemesplit
    rw [if_neg (by omega : ¬ e ≤ p)]
    dsimp only
    have hbase : 1 ≤ if inline_utf8length (buf.getD p 0) = 0 then 1
        else inline_utf8length (buf.getD p 0) := by
      split <;> omega
    by_cases hrem : e - p < (if inline_utf8length (buf.getD p 0) = 0 then 1
        else inline_utf8length (buf.getD p 0))
    · simp only [if_pos hrem]
      omega
    · simp only [if_neg hrem]
      have hp1 : p + (if inline_utf8length (buf.getD p 0) = 0 then 1 else inline_utf8length (buf.getD p 0)) ≤ e := by omega
      have hc := splitCombining_bounds buf e (e - (p + (if inline_utf8length (buf.getD p 0) = 0 then 1 else inline_utf8length (buf.getD p 0))) + 1) (p + (if inline_utf8length (buf.getD p 0) = 0 then 1 else inline_utf8length (buf.getD p 0))) p hp1
      have hs := splitSuffixes_bounds buf e (e - (splitCombining buf e (e - (p + (if inline_utf8length (buf.getD p 0) = 0 then 1 else inline_utf8length (buf.getD p 0))) + 1) (p + (if inline_utf8length (buf.getD p 0) = 0 then 1 else inline_utf8length (buf.getD p 0))) p).1 + 1) (splitCombining buf e (e - (p + (if inline_utf8length (buf.getD p 0) = 0 then 1 else inline_utf8length (buf.getD p 0))) + 1) (p + (if inline_utf8length (buf.getD p 0) = 0 then 1 else inline_utf8length (buf.getD p 0))) p).1 (splitCombining buf e (e - (p + (if inline_utf8length (buf.getD p 0) = 0 then 1 else inline_utf8length (buf.getD p 0))) + 1) (p + (if inline_utf8length (buf.getD p 0) = 0 then 1 else inline_utf8length (buf.getD p 0))) p).2 hc.2
      have hz := splitZwj_bounds buf e (e - (splitSuffixes buf e (e - (splitCombining buf e (e - (p + (if inline_utf8length (buf.getD p 0) = 0 then 1 else inline_utf8length (buf.getD p 0))) + 1) (p + (if inline_utf8length (buf.getD p 0) = 0 then 1 else inline_utf8length (buf.getD p 0))) p).1 + 1) (splitCombining buf e (e - (p + (if inline_utf8length (buf.getD p 0) = 0 then 1 else inline_utf8length (buf.getD p 0))) + 1) (p + (if inline_utf8length (buf.getD p 0) = 0 then 1 else inline_utf8length (buf.getD p 0))) p).1 (splitCombining buf e (e - (p + (if inline_utf8length (buf.getD p 0) = 0 then 1 else inline_utf8length (buf.getD p 0))) + 1) (p + (if inline_utf8length (buf.getD p 0) = 0 then 1 else inline_utf8length (buf.getD p 0))) p).2).1 + 1) (splitSuffixes buf e (e - (splitCombining buf e (e - (p + (if inline_utf8length (buf.getD p 0) = 0 then 1 else inline_utf8length (buf.getD p 0))) + 1) (p + (if inline_utf8length (buf.getD p 0) = 0 then 1 else inline_utf8length (buf.getD p 0))) p).1 + 1) (splitCombining buf e (e - (p + (if inline_utf8length (buf.getD p 0) = 0 then 1 else inline_utf8length (buf.getD p 0))) + 1) (p + (if inline_utf8length (buf.getD p 0) = 0 then 1 else inline_utf8length (buf.getD p 0))) p).1 (splitCombining buf e (e - (p + (if inline_utf8length (buf.getD p 0) = 0 then 1 else inline_utf8length (buf.getD p 0))) + 1) (p + (if inline_utf8length (buf.getD p 0) = 0 then 1 else inline_utf8length (buf.getD p 0))) p).2).1 (splitSuffixes buf e (e - (splitCombining buf e (e - (p + (if inline_utf8length (buf.getD p 0) = 0 then 1 else inline_utf8length (buf.getD p 0))) + 1) (p + (if inline_utf8length (buf.getD p 0) = 0 then 1 else inline_utf8length (buf.getD p 0))) p).1 + 1) (splitCombining buf e (e - (p + (if inline_utf8length (buf.getD p 0) = 0 then 1 else inline_utf8length (buf.getD p 0))) + 1) (p + (if inline_utf8length (buf.getD p 0) = 0 then 1 else inline_utf8length (buf.getD p 0))) p).1 (splitCombining buf e (e - (p + (if inline_utf8length (buf.getD p 0) = 0 then 1 else inline_utf8length (buf.getD p 0))) + 1) (p + (if inline_utf8length (buf.getD p 0) = 0 then 1 else inline_utf8length (buf.getD p 0))) p).2).2 hs.2
      constructor
      · have h1 := hc.1
        have h2 := hs.1
        have h3 := hz.1
        omega
      · have h4 := hz.2
        omega
  · intro fn buf
    exact ⟨graphemeOffsets_chain fn buf, graphemeOffsets_length_le fn buf⟩

/-- Witness for C8: the splitter consumes exactly the one remaining byte of
a buffer holding the lone malformed byte `0xFF`. -/
theorem inline_graphemesplit_progress_witness :
    1 ≤ inline_graphemesplit [0xFF] 0 1 ∧ inline_graphemesplit [0xFF] 0 1 ≤ 1 - 0 :=
  inline_graphemesplit_progress.1 [0xFF] 0 1 (by decide)

theorem fgiGo_zero (g : List Nat) (t lo hi : Nat) : fgiGo g t 0 lo hi = lo := rfl

theorem fgiGo_succ (g : List Nat) (t fuel lo hi : Nat) :
    fgiGo g t (fuel + 1) lo hi =
      if lo < hi then
        (if g.getD ((lo + hi) / 2) 0 < t then fgiGo g t fuel ((lo + hi) / 2 + 1) hi
         else fgiGo g t fuel lo ((lo + hi) / 2))
      else lo := rfl

/-- Specification of the binary search of `inline_findgraphemeindex` on a
range of indices over which the reads are strictly increasing: it returns
the least index whose entry is at least `t`. -/
theorem fgiGo_spec (g : List Nat) (t cnt : Nat)
    (mono : ∀ i j, i < j → j ≤ cnt → g.getD i 0 < g.getD j 0) :
    ∀ fuel lo hi, hi ≤ lo + fuel → lo ≤ hi → hi ≤ cnt →
      (∀ j, j < lo → g.getD j 0 < t) → t ≤ g.getD hi 0 →
      lo ≤ fgiGo g t fuel lo hi ∧ fgiGo g t fuel lo hi ≤ hi ∧
      (∀ j, j < fgiGo g t fuel lo hi → g.getD j 0 < t) ∧
      t ≤ g.getD (fgiGo g t fuel lo hi) 0 := by
  intro fuel
  induction fuel with
  | zero =>
      intro lo hi hfuel hlohi hhicnt hlo hhi
      have heq : hi = lo := by omega
      rw [fgiGo_zero]
      subst heq
      exact ⟨le_refl _, le_refl _, hlo, hhi⟩
  | succ fuel ih =>
      intro lo hi hfuel hlohi hhicnt hlo hhi
      rw [fgiGo_succ]
      by_cases hlt : lo < hi
      · rw [if_pos hlt]
        have hmidlo : lo ≤ (lo + hi) / 2 := by omega
        have hmidhi : (lo + hi) / 2 < hi := by omega
        by_cases hmid : g.getD ((lo + hi) / 2) 0 < t
        · rw [if_pos hmid]
          have h := ih ((lo + hi) / 2 + 1) hi (by omega) (by omega) hhicnt
            (by
              intro j hj
              rcases Nat.lt_or_ge j ((lo + hi) / 2) with h1 | h2
              · exact lt_trans (mono j ((lo + hi) / 2) h1 (by omega)) hmid
              · have : j = (lo + hi) / 2 := by omega
                rw [this]
                exact hmid)
            hhi
          exact ⟨by omega, h.2.1, h.2.2.1, h.2.2.2⟩
        · rw [if_neg hmid]
          have h := ih lo ((lo + hi) / 2) (by omega) (by omega) (by omega) hlo (by omega)
          exact ⟨h.1, by omega, h.2.2.1, h.2.2.2⟩
      · rw [if_neg hlt]
        have heq : hi = lo := by omega
        subst heq
        exact ⟨le_refl _, le_refl _, hlo, hhi⟩

/-- `inline_findgraphemeindex` on a strictly increasing grapheme list with
valid sentinel returns the least index whose start byte is at least `t`. -/
theorem findgraphemeindex_spec (y : Editor) (t : Nat)
    (hchain : List.Chain' (· < ·) y.graphemes)
    (hlen : y.graphemes.length = y.graphemeCount + 1)
    (hsent : t ≤ y.graphemes.getD y.graphemeCount 0) :
    inline_findgraphemeindex y t ≤ y.graphemeCount ∧
    (∀ j, j < inline_findgraphemeindex y t → y.graphemes.getD j 0 < t) ∧
    t ≤ y.graphemes.getD (inline_findgraphemeindex y t) 0 := by
  unfold inline_findgraphemeindex
  have mono : ∀ i j, i < j → j ≤ y.graphemeCount →
      y.graphemes.getD i 0 < y.graphemes.getD j 0 := by
    intro i j hij hj
    exact chain'_lt_getD y.graphemes hchain hij (by omega)
  have h := fgiGo_spec y.graphemes t y.graphemeCount mono y.graphemeCount 0 y.graphemeCount
    (by omega) (by omega) (le_refl _) (fun j hj => absurd hj (by omega)) hsent
  exact ⟨h.2.1, h.2.2.1, h.2.2.2⟩

/-- C2 (amended): after a successful insertion of `n` bytes at the cursor's
byte offset `off`, the recomputed cursor is the first grapheme index whose
start byte is at least `off + n`: every earlier grapheme starts strictly
before `off + n`, the cursor's own start byte is at least `off + n`, the
cursor stays in range, and whenever some grapheme index starts exactly at
`off + n` the cursor is exactly that index — the grapheme immediately after
the inserted run. -/
theorem inline_insert_cursor (fn : SplitFn) (e : Editor) (bytes : List Nat)
    (hoff : insertOffset e ≤ e.buffer.length) :
    (∀ j, j < (inline_insert fn e bytes).cursor →
        (inline_insert fn e bytes).graphemes.getD j 0 < insertOffset e + bytes.length) ∧
    insertOffset e + bytes.length ≤
      (inline_insert fn e bytes).graphemes.getD (inline_insert fn e bytes).cursor 0 ∧
    (inline_insert fn e bytes).cursor ≤ (inline_insert fn e bytes).graphemeCount ∧
    (∀ j, j ≤ (inline_insert fn e bytes).graphemeCount →
        (inline_insert fn e bytes).graphemes.getD j 0 = insertOffset e + bytes.length →
        (inline_insert fn e bytes).cursor = j) := by
  unfold inline_insert
  dsimp only
  set NB := e.buffer.take (insertOffset e) ++ bytes ++ e.buffer.drop (insertOffset e) with hNB
  set E1 := inline_recomputelines (inline_recomputegraphemes fn { e with buffer := NB }) with hE1
  set r := inline_findgraphemeindex E1 (insertOffset e + bytes.length) with hr
  have hg : E1.graphemes = graphemeOffsets fn NB ++ [NB.length] := by rw [hE1]; simp
  have hc : E1.graphemeCount = (graphemeOffsets fn NB).length := by rw [hE1]; simp
  have hlen2 : E1.graphemes.length = E1.graphemeCount + 1 := by rw [hg, hc]; simp
  have hchain : List.Chain' (· < ·) E1.graphemes := by
    rw [hg]; exact graphemeOffsets_chain fn NB
  have hNBlen : NB.length = e.buffer.length + bytes.length := by
    rw [hNB]; simp; omega
  have hsent : insertOffset e + bytes.length ≤ E1.graphemes.getD E1.graphemeCount 0 := by
    rw [hg, hc, getD_append_length, hNBlen]
    omega
  have hspec := findgraphemeindex_spec E1 (insertOffset e + bytes.length) hchain hlen2 hsent
  rw [← hr] at hspec
  have hcur : (inline_setcursorposn E1 (r : Int)).cursor = r :=
    setcursorposn_cursor_of_le E1 r hspec.1
  refine ⟨?_, ?_, ?_, ?_⟩
  · intro j hj
    rw [setcursorposn_graphemes]
    rw [hcur] at hj
    exact hspec.2.1 j hj
  · rw [setcursorposn_graphemes, hcur]
    exact hspec.2.2
  · rw [hcur, setcursorposn_count]
    exact hspec.1
  · intro j hjle hjeq
    rw [setcursorposn_count] at hjle
    rw [setcursorposn_graphemes] at hjeq
    rw [hcur]
    by_contra hne
    rcases Nat.lt_or_ge r j with h1 | h2
    · have hlt := chain'_lt_getD E1.graphemes hchain h1 (by omega)
      have := hspec.2.2
      omega
    · have h3 : j < r := by omega
      have := hspec.2.1 j h3
      omega

/-- Counterexample for C2 as stated: inserting the single byte `e` (0x65)
at cursor 0 into the buffer holding the combining accent `0xCC 0x80` makes
the accent join the new base character, so no grapheme starts at byte
`off + n = 1`; the recomputed cursor lands on the sentinel position, whose
start byte is 3, not 1.  The starting state is a valid editor state. -/
theorem inline_insert_cursor_counterexample :
    ValidEditor editorCombining ∧
    (inline_insert inline_graphemesplit editorCombining [101]).graphemes.getD
        (inline_insert inline_graphemesplit editorCombining [101]).cursor 0 ≠
      insertOffset editorCombining + ([101] : List Nat).length := by
  constructor
  · decide
  · decide

/-- Witness for C2's amended theorem at the editor `ab` with the cursor at
the end: inserting `c` places the cursor on the grapheme starting at byte
`off + n = 3`. -/
theorem inline_insert_cursor_witness :
    insertOffset editorAB ≤ editorAB.buffer.length ∧
    insertOffset editorAB + ([99] : List Nat).length ≤
      (inline_insert inline_graphemesplit editorAB [99]).graphemes.getD
        (inline_insert inline_graphemesplit editorAB [99]).cursor 0 :=
  ⟨by decide, (inline_insert_cursor inline_graphemesplit editorAB [99] (by decide)).2.1⟩

@[simp] theorem deletebytes_cursor (fn : SplitFn) (e : Editor) (s t : Nat) :
    (inline_deletebytes fn e s t).cursor = e.cursor := by
  unfold inline_deletebytes
  split
  · rfl
  · simp

@[simp] theorem deletebytes_selection (fn : SplitFn) (e : Editor) (s t : Nat) :
    (inline_deletebytes fn e s t).selection = e.selection := by
  unfold inline_deletebytes
  split
  · rfl
  · simp

theorem deletebytes_buffer_of (fn : SplitFn) (e : Editor) (s t : Nat)
    (h1 : s < t) (h2 : t ≤ e.buffer.length) :
    (inline_deletebytes fn e s t).buffer = e.buffer.take s ++ e.buffer.drop t := by
  unfold inline_deletebytes
  rw [if_neg (by omega)]
  simp

/-- The cursor clamp of `inline_setcursorposn` on a natural position is a
minimum with the grapheme count. -/
theorem setcursorposn_cursor_nat (x : Editor) (n : Nat) :
    (inline_setcursorposn x (n : Int)).cursor = min n x.graphemeCount := by
  rw [setcursorposn_cursor]
  rw [if_neg (by omega : ¬ (n : Int) < 0)]
  split <;> omega

/-- Under the grapheme invariant every recorded offset is at most the
buffer length. -/
theorem valid_getD_le (e : Editor) (hchain : List.Chain' (· < ·) e.graphemes)
    (hglen : e.graphemes.length = e.graphemeCount + 1)
    (hsent : e.graphemes.getD e.graphemeCount 0 = e.buffer.length) (j : Nat) :
    e.graphemes.getD j 0 ≤ e.buffer.length := by
  by_cases hj : j < e.graphemes.length
  · have hj2 : j ≤ e.graphemeCount := by omega
    have := chain'_le_getD e.graphemes hchain hj2 (by omega)
    omega
  · rw [List.getD_eq_default _ _ (by omega)]
    omega

/-- The first component of `inline_graphemerange` at a natural index. -/
theorem graphemerange_fst_nat (e : Editor) (i : Nat) :
    (inline_graphemerange e (i : Int)).1 =
      if i < e.graphemeCount then e.graphemes.getD i 0 else e.buffer.length := by
  unfold inline_graphemerange
  rcases Nat.lt_or_ge i e.graphemeCount with h | h
  · rw [if_neg (by omega), if_pos h]
    simp
  · rw [if_pos (by omega), if_neg (by omega)]

/-- Monotonicity of grapheme start bytes under the editor invariant. -/
theorem graphemerange_fst_mono (e : Editor) (hchain : List.Chain' (· < ·) e.graphemes)
    (hglen : e.graphemes.length = e.graphemeCount + 1)
    (hsent : e.graphemes.getD e.graphemeCount 0 = e.buffer.length)
    (i j : Nat) (hij : i ≤ j) :
    (inline_graphemerange e (i : Int)).1 ≤ (inline_graphemerange e (j : Int)).1 := by
  rw [graphemerange_fst_nat, graphemerange_fst_nat]
  rcases Nat.lt_or_ge i e.graphemeCount with hi | hi
  · rw [if_pos hi]
    rcases Nat.lt_or_ge j e.graphemeCount with hj | hj
    · rw [if_pos hj]
      exact chain'_le_getD e.graphemes hchain hij (by omega)
    · rw [if_neg (by omega)]
      exact valid_getD_le e hchain hglen hsent i
  · rw [if_neg (by omega), if_neg (by omega)]

/-- Grapheme start bytes never exceed the buffer length under the editor
invariant. -/
theorem graphemerange_fst_le_len (e : Editor) (hchain : List.Chain' (· < ·) e.graphemes)
    (hglen : e.graphemes.length = e.graphemeCount + 1)
    (hsent : e.graphemes.getD e.graphemeCount 0 = e.buffer.length) (i : Nat) :
    (inline_graphemerange e (i : Int)).1 ≤ e.buffer.length := by
  rw [graphemerange_fst_nat]
  split
  · exact valid_getD_le e hchain hglen hsent i
  · exact le_refl _

/-- C3 (amended): user backspace.  With a selection the selected byte range
is removed, the selection is cleared, and the cursor becomes the selection's
left edge clamped to the new grapheme count (the left edge itself whenever
it is still a valid position, as with the default splitter).  With no
selection and the cursor past 0, the grapheme at `cursor-1` is removed and
the cursor becomes `cursor-1` clamped to the new grapheme count, i.e. it is
decremented by one whenever the recomputed index retains at least
`cursor-1` graphemes.  At cursor 0 the grapheme under the cursor, if any,
is removed with the cursor staying at 0, and on an empty buffer the
operation is a no-op. -/
theorem inline_delete_spec (fn : SplitFn) (e : Editor) (hv : ValidEditor e) :
    (∀ s, e.selection = some s →
        (inline_delete fn e).buffer =
          e.buffer.take ((inline_graphemerange e ((min s e.cursor : Nat) : Int)).1) ++
          e.buffer.drop ((inline_graphemerange e ((max s e.cursor : Nat) : Int)).1) ∧
        (inline_delete fn e).selection = none ∧
        (inline_delete fn e).cursor =
          min (min s e.cursor) (inline_delete fn e).graphemeCount) ∧
    (e.selection = none → 0 < e.cursor →
        (inline_delete fn e).buffer =
          e.buffer.take (e.graphemes.getD (e.cursor - 1) 0) ++
          e.buffer.drop (e.graphemes.getD e.cursor 0) ∧
        (inline_delete fn e).cursor =
          min (e.cursor - 1) (inline_delete fn e).graphemeCount) ∧
    (e.selection = none → e.cursor = 0 →
        (0 < e.graphemeCount →
            (inline_delete fn e).buffer = e.buffer.drop (e.graphemes.getD 1 0) ∧
            (inline_delete fn e).cursor = 0) ∧
        (e.buffer = [] → inline_delete fn e = e)) := by
  obtain ⟨⟨hchain, hhead, hsent⟩, hglen, hcur, hsel⟩ := hv
  refine ⟨?_, ?_, ?_⟩
  · -- selection branch
    intro s hs
    rw [hs] at hsel
    simp only [Option.getD_some] at hsel
    have hdel : inline_delete fn e = inline_deleteselection fn e := by
      unfold inline_delete
      rw [if_pos (by rw [hs]; simp)]
    have hsr : inline_selectionrange e =
        some (min s e.cursor, max s e.cursor,
          (inline_graphemerange e ((min s e.cursor : Nat) : Int)).1,
          (inline_graphemerange e ((max s e.cursor : Nat) : Int)).1) := by
      unfold inline_selectionrange
      rw [hs]
    have hds : inline_deleteselection fn e =
        inline_setcursorposn
          { inline_deletebytes fn e ((inline_graphemerange e ((min s e.cursor : Nat) : Int)).1)
              ((inline_graphemerange e ((max s e.cursor : Nat) : Int)).1) with selection := none }
          ((min s e.cursor : Nat) : Int) := by
      unfold inline_deleteselection
      rw [hsr]
    rw [hdel, hds]
    have hst_en : (inline_graphemerange e ((min s e.cursor : Nat) : Int)).1 ≤
        (inline_graphemerange e ((max s e.cursor : Nat) : Int)).1 :=
      graphemerange_fst_mono e hchain hglen hsent _ _ (by omega)
    have hen_len : (inline_graphemerange e ((max s e.cursor : Nat) : Int)).1 ≤ e.buffer.length :=
      graphemerange_fst_le_len e hchain hglen hsent _
    refine ⟨?_, by simp, ?_⟩
    · rcases Nat.lt_or_ge (inline_graphemerange e ((min s e.cursor : Nat) : Int)).1
        (inline_graphemerange e ((max s e.cursor : Nat) : Int)).1 with hlt | hge
      · rw [setcursorposn_buffer]
        show (inline_deletebytes fn e _ _).buffer = _
        rw [deletebytes_buffer_of fn e _ _ hlt hen_len]
      · have heq : (inline_graphemerange e ((min s e.cursor : Nat) : Int)).1 =
            (inline_graphemerange e ((max s e.cursor : Nat) : Int)).1 := by omega
        rw [setcursorposn_buffer]
        show (inline_deletebytes fn e _ _).buffer = _
        unfold inline_deletebytes
        rw [if_pos (by omega)]
        rw [heq]
        exact (List.take_append_drop _ e.buffer).symm
    · rw [setcursorposn_cursor_nat, setcursorposn_count]
  · -- backspace branch
    intro hs hc0
    have hdel : inline_delete fn e =
        inline_setcursorposn (inline_deletegrapheme fn e ((e.cursor : Int) - 1))
          (((inline_deletegrapheme fn e ((e.cursor : Int) - 1)).cursor : Int) - 1) := by
      unfold inline_delete
      rw [if_neg (by rw [hs]; simp), if_pos hc0]
    have htn : ((e.cursor : Int) - 1).toNat = e.cursor - 1 := by omega
    have hdg : inline_deletegrapheme fn e ((e.cursor : Int) - 1) =
        inline_deletebytes fn e (e.graphemes.getD (e.cursor - 1) 0)
          (e.graphemes.getD e.cursor 0) := by
      unfold inline_deletegrapheme
      rw [if_neg (by omega)]
      rw [htn]
      have : e.cursor - 1 + 1 = e.cursor := by omega
      rw [this]
    have hlt : e.graphemes.getD (e.cursor - 1) 0 < e.graphemes.getD e.cursor 0 :=
      chain'_lt_getD e.graphemes hchain (by omega) (by omega)
    have hle : e.graphemes.getD e.cursor 0 ≤ e.buffer.length :=
      valid_getD_le e hchain hglen hsent e.cursor
    rw [hdel, hdg]
    rw [deletebytes_cursor]
    have hcast : ((e.cursor : Int) - 1) = ((e.cursor - 1 : Nat) : Int) := by omega
    rw [hcast]
    refine ⟨?_, ?_⟩
    · rw [setcursorposn_buffer]
      exact deletebytes_buffer_of fn e _ _ hlt hle
    · rw [setcursorposn_cursor_nat, setcursorposn_count]
  · -- cursor-0 branch
    intro hs hc0
    have hdel : inline_delete fn e = inline_deletecurrent fn e := by
      unfold inline_delete
      rw [if_neg (by rw [hs]; simp), if_neg (by omega)]
    refine ⟨?_, ?_⟩
    · intro hcount
      have hdc : inline_deletecurrent fn e = inline_deletegrapheme fn e (e.cursor : Int) := by
        unfold inline_deletecurrent
        rw [if_pos (by omega)]
      have hdg : inline_deletegrapheme fn e (e.cursor : Int) =
          inline_deletebytes fn e (e.graphemes.getD 0 0) (e.graphemes.getD 1 0) := by
        unfold inline_deletegrapheme
        rw [if_neg (by omega)]
        rw [hc0]
        simp
      have hne : e.buffer ≠ [] := by
        intro hnil
        have hz : e.graphemes.getD 0 0 < e.graphemes.getD e.graphemeCount 0 :=
          chain'_lt_getD e.graphemes hchain (by omega) (by omega)
        rw [hsent, hnil] at hz
        simp at hz
      have h0 : e.graphemes.getD 0 0 = 0 := by
        have hh := hhead hne
        cases hg : e.graphemes with
        | nil => rw [hg] at hh; simp at hh
        | cons a t =>
            rw [hg] at hh
            simp at hh
            simp [hh]
      have hlt : e.graphemes.getD 0 0 < e.graphemes.getD 1 0 :=
        chain'_lt_getD e.graphemes hchain (by omega) (by omega)
      have hle : e.graphemes.getD 1 0 ≤ e.buffer.length :=
        valid_getD_le e hchain hglen hsent 1
      rw [hdel, hdc, hdg]
      refine ⟨?_, ?_⟩
      · rw [deletebytes_buffer_of fn e _ _ hlt hle, h0]
        simp
      · rw [deletebytes_cursor, hc0]
    · intro hnil
      have hcount : e.graphemeCount = 0 := by
        by_contra hng
        have hz : e.graphemes.getD 0 0 < e.graphemes.getD e.graphemeCount 0 :=
          chain'_lt_getD e.graphemes hchain (by omega) (by omega)
        rw [hsent, hnil] at hz
        simp at hz
      rw [hdel]
      unfold inline_deletecurrent
      rw [if_neg (by omega)]

/-- Counterexample for C3 as stated: with a host-installed splitter that
re-segments the post-delete buffer `ab` as a single grapheme, backspacing
at cursor 3 of the valid state for `abc` deletes grapheme 2 but cannot set
the cursor to `cursor - 1 = 2`: the clamp of `inline_setcursorposn` leaves
it at the new grapheme count 1. -/
theorem inline_delete_counterexample :
    ValidEditor editorABC ∧
    editorABC.selection = none ∧ 0 < editorABC.cursor ∧
    (inline_delete mergingSplit editorABC).cursor ≠ editorABC.cursor - 1 := by
  refine ⟨by decide, by decide, by decide, by decide⟩

/-- Witness for C3's amended theorem: backspace on the valid editor `ab`
with the cursor at 2 removes grapheme 1 and decrements the cursor. -/
theorem inline_delete_spec_witness :
    ValidEditor editorAB ∧
    ((inline_delete inline_graphemesplit editorAB).buffer =
      editorAB.buffer.take (editorAB.graphemes.getD (editorAB.cursor - 1) 0) ++
      editorAB.buffer.drop (editorAB.graphemes.getD editorAB.cursor 0) ∧
     (inline_delete inline_graphemesplit editorAB).cursor =
      min (editorAB.cursor - 1) (inline_delete inline_graphemesplit editorAB).graphemeCount) :=
  ⟨by decide, (inline_delete_spec inline_graphemesplit editorAB (by decide)).2.1 rfl (by decide)⟩

/-- C6 (amended): with at least two graphemes and the cursor past 0,
transpose swaps the bytes of graphemes `a` and `a+1`, where `a = cursor-1`
when the cursor is not at the end and `a = grapheme_count-2` when it is;
it recomputes the grapheme index, moves the cursor forward one position
(clamped to the recomputed count) when the cursor was not at the end, and
leaves the cursor unchanged when the cursor was at the end. -/
theorem inline_transpose_spec (fn : SplitFn) (e : Editor) (a : Nat) (hv : ValidEditor e)
    (h2 : 2 ≤ e.graphemeCount) (hc : 0 < e.cursor)
    (ha : a = if e.graphemeCount ≤ e.cursor then e.graphemeCount - 2 else e.cursor - 1) :
    (inline_transpose fn e).buffer =
      e.buffer.take (e.graphemes.getD a 0) ++
      (e.buffer.drop (e.graphemes.getD (a + 1) 0)).take
        (e.graphemes.getD (a + 2) 0 - e.graphemes.getD (a + 1) 0) ++
      (e.buffer.drop (e.graphemes.getD a 0)).take
        (e.graphemes.getD (a + 1) 0 - e.graphemes.getD a 0) ++
      e.buffer.drop (e.graphemes.getD (a + 2) 0) ∧
    graphemeInv (inline_transpose fn e) ∧
    (e.cursor < e.graphemeCount →
        (inline_transpose fn e).cursor =
          min (e.cursor + 1) (inline_transpose fn e).graphemeCount) ∧
    (e.graphemeCount ≤ e.cursor → (inline_transpose fn e).cursor = e.cursor) := by
  obtain ⟨⟨hchain, hhead, hsent⟩, hglen, hcur, hsel⟩ := hv
  have ha2 : a + 2 ≤ e.graphemeCount := by
    rw [ha]; split <;> omega
  have hga : inline_graphemerange e (a : Int) =
      (e.graphemes.getD a 0, e.graphemes.getD (a + 1) 0) := by
    unfold inline_graphemerange
    rw [if_neg (by omega)]
    simp
  have hcast : ((a : Int) + 1) = ((a + 1 : Nat) : Int) := by omega
  have hgb : inline_graphemerange e ((a : Int) + 1) =
      (e.graphemes.getD (a + 1) 0, e.graphemes.getD (a + 2) 0) := by
    rw [hcast]
    unfold inline_graphemerange
    rw [if_neg (by omega)]
    have h11 : (a + 1 : Nat) + 1 = a + 2 := by omega
    simp [h11]
  have hle1 : e.graphemes.getD a 0 ≤ e.graphemes.getD (a + 1) 0 :=
    chain'_le_getD e.graphemes hchain (by omega) (by omega)
  have hle2 : e.graphemes.getD (a + 1) 0 ≤ e.graphemes.getD (a + 2) 0 :=
    chain'_le_getD e.graphemes hchain (by omega) (by omega)
  unfold inline_transpose
  rw [if_neg (by omega : ¬ (e.graphemeCount < 2 ∨ e.cursor = 0))]
  dsimp only
  rw [← ha, hga, hgb]
  dsimp only
  have hidx : e.graphemes.getD a 0 +
      (e.graphemes.getD (a + 2) 0 - e.graphemes.getD (a + 1) 0) +
      (e.graphemes.getD (a + 1) 0 - e.graphemes.getD a 0) = e.graphemes.getD (a + 2) 0 := by
    omega
  rw [hidx]
  refine ⟨?_, ?_, ?_, ?_⟩
  · by_cases hcc : e.cursor < e.graphemeCount
    · rw [if_pos hcc]
      simp
    · rw [if_neg hcc]
      simp
  · by_cases hcc : e.cursor < e.graphemeCount
    · rw [if_pos hcc]
      rw [graphemeInv_setcursorposn]
      exact graphemeInv_recompute fn _
    · rw [if_neg hcc]
      exact graphemeInv_recompute fn _
  · intro hcc
    rw [if_pos hcc]
    rw [recomputegraphemes_cursor]
    have hcast2 : ((e.cursor : Int) + 1) = ((e.cursor + 1 : Nat) : Int) := by omega
    rw [hcast2, setcursorposn_cursor_nat, setcursorposn_count]
  · intro hcc
    rw [if_neg (by omega)]
    rw [recomputegraphemes_cursor]

/-- Counterexample for C6 as stated: on the valid editor `ab` with the
cursor at the end (position 2 = grapheme_count), the code swaps the last
two graphemes giving `ba` and leaves the cursor at 2, while the
specification's reading — swap graphemes `cursor-1` and `cursor` and move
the cursor forward — would leave the buffer `ab` unchanged, since no
grapheme exists at index `cursor`. -/
theorem inline_transpose_counterexample :
    ValidEditor editorAB ∧
    (inline_transpose inline_graphemesplit editorAB).buffer = [98, 97] ∧
    (inline_transpose_claimed inline_graphemesplit editorAB).buffer = [97, 98] ∧
    (inline_transpose inline_graphemesplit editorAB).buffer ≠
      (inline_transpose_claimed inline_graphemesplit editorAB).buffer ∧
    (inline_transpose inline_graphemesplit editorAB).cursor = 2 := by
  refine ⟨by decide, by decide, by decide, by decide, by decide⟩

/-- Witness for C6's amended theorem: transposing `ab` with the cursor at
the end leaves the cursor at the end. -/
theorem inline_transpose_spec_witness :
    ValidEditor editorAB ∧
    (inline_transpose inline_graphemesplit editorAB).cursor = editorAB.cursor :=
  ⟨by decide,
   (inline_transpose_spec inline_graphemesplit editorAB 0 (by decide) (by decide) (by decide)
      (by decide)).2.2.2 (by decide)⟩

@[simp] theorem stringlist_advance_items (l : inline_stringlist) (d : Int) (w : Bool) :
    (inline_stringlist_advance l d w).items = l.items := by
  unfold inline_stringlist_advance
  split
  · rfl
  · dsimp only
    split
    · rfl
    · rfl

/-- Unfolding of a wrapped `inline_stringlist_advance` on a valid index. -/
theorem stringlist_advance_wrap (l : inline_stringlist) (d : Int)
    (h0 : 0 ≤ l.index) (h1 : l.index < (l.items.length : Int)) :
    inline_stringlist_advance l d true =
      ⟨l.items, Int.tmod (l.index + d + (l.items.length : Int)) (l.items.length : Int)⟩ := by
  have hg1 : ¬ (l.items.length = 0 ∨ l.index < 0) := by omega
  have hg2 : ¬ ((l.items.length : Int) ≤ l.index) := by omega
  unfold inline_stringlist_advance
  rw [if_neg hg1]
  dsimp only
  rw [if_neg hg2]
  rw [if_pos rfl]

/-- C7 (amended): on a non-empty suggestion list whose current index is
valid, advancing by `+n` and then by `-n` with wrap-around returns to the
same current suggestion for every `n` up to the list length.  (For larger
`n` the truncated `%` of C can drive the index negative; see the
counterexample.) -/
theorem inline_advancesuggestions_roundtrip (e : Editor) (n : Nat)
    (h0 : 0 ≤ e.suggestions.index)
    (h1 : e.suggestions.index < (e.suggestions.items.length : Int))
    (h2 : n ≤ e.suggestions.items.length) :
    inline_currentsuggestion
        (inline_advancesuggestions (inline_advancesuggestions e (n : Int)) (-(n : Int))) =
      inline_currentsuggestion e := by
  have hcount : 0 < e.suggestions.items.length := by omega
  have hadv1 := stringlist_advance_wrap e.suggestions (n : Int) h0 h1
  have htm1 : Int.tmod (e.suggestions.index + (n : Int) + (e.suggestions.items.length : Int))
      (e.suggestions.items.length : Int) =
      (e.suggestions.index + (n : Int) + (e.suggestions.items.length : Int)) %
        (e.suggestions.items.length : Int) :=
    Int.tmod_eq_emod (by omega) (by omega)
  have hi1lo : (0 : Int) ≤ (e.suggestions.index + (n : Int) +
      (e.suggestions.items.length : Int)) % (e.suggestions.items.length : Int) :=
    Int.emod_nonneg _ (by omega)
  have hi1hi : (e.suggestions.index + (n : Int) + (e.suggestions.items.length : Int)) %
      (e.suggestions.items.length : Int) < (e.suggestions.items.length : Int) :=
    Int.emod_lt_of_pos _ (by omega)
  have hadv2 := stringlist_advance_wrap
    ⟨e.suggestions.items, (e.suggestions.index + (n : Int) +
      (e.suggestions.items.length : Int)) % (e.suggestions.items.length : Int)⟩
    (-(n : Int)) hi1lo hi1hi
  dsimp only at hadv2
  have htm2 : Int.tmod ((e.suggestions.index + (n : Int) +
        (e.suggestions.items.length : Int)) % (e.suggestions.items.length : Int) +
        -(n : Int) + (e.suggestions.items.length : Int)) (e.suggestions.items.length : Int) =
      ((e.suggestions.index + (n : Int) + (e.suggestions.items.length : Int)) %
        (e.suggestions.items.length : Int) + -(n : Int) +
        (e.suggestions.items.length : Int)) % (e.suggestions.items.length : Int) :=
    Int.tmod_eq_emod (by omega) (by omega)
  have hmod : ((e.suggestions.index + (n : Int) + (e.suggestions.items.length : Int)) %
        (e.suggestions.items.length : Int) + -(n : Int) +
        (e.suggestions.items.length : Int)) % (e.suggestions.items.length : Int) =
      e.suggestions.index := by
    have ha : (e.suggestions.index + (n : Int) + (e.suggestions.items.length : Int)) %
          (e.suggestions.items.length : Int) + -(n : Int) +
          (e.suggestions.items.length : Int) =
        (e.suggestions.index + (n : Int) + (e.suggestions.items.length : Int)) %
          (e.suggestions.items.length : Int) +
          ((e.suggestions.items.length : Int) - (n : Int)) := by
      ring
    rw [ha, Int.emod_add_emod]
    have hb : e.suggestions.index + (n : Int) + (e.suggestions.items.length : Int) +
        ((e.suggestions.items.length : Int) - (n : Int)) =
        e.suggestions.index + (e.suggestions.items.length : Int) * 2 := by
      ring
    rw [hb, Int.add_mul_emod_self_left]
    exact Int.emod_eq_of_lt h0 h1
  have hfix : inline_stringlist_advance (inline_stringlist_advance e.suggestions
      ((n : Nat) : Int) true) (-((n : Nat) : Int)) true = e.suggestions := by
    rw [hadv1, htm1, hadv2, htm2, hmod]
  unfold inline_advancesuggestions
  dsimp only
  rw [hfix]

/-- Counterexample for C7 as stated: on the two-element suggestion list
with current index 1, advancing by `+3` and then `-3` computes
`(0 - 3 + 2) % 2 = -1` with C's truncated `%`, so the index goes invalid
and the current suggestion becomes null instead of returning to `b`. -/
theorem inline_advancesuggestions_counterexample :
    inline_currentsuggestion
        (inline_advancesuggestions (inline_advancesuggestions
          { baseEditor with suggestions := ⟨["a", "b"], 1⟩ } (3 : Int)) (-(3 : Int))) = none ∧
    inline_currentsuggestion { baseEditor with suggestions := ⟨["a", "b"], 1⟩ } = some "b" := by
  refine ⟨by decide, by decide⟩

/-- Witness for C7's amended theorem: on `["a", "b"]` with index 1 and
`n = 2` the round trip returns to `b`. -/
theorem inline_advancesuggestions_roundtrip_witness :
    inline_currentsuggestion
        (inline_advancesuggestions (inline_advancesuggestions
          { baseEditor with suggestions := ⟨["a", "b"], 1⟩ } (2 : Int)) (-(2 : Int))) =
      inline_currentsuggestion { baseEditor with suggestions := ⟨["a", "b"], 1⟩ } :=
  inline_advancesuggestions_roundtrip { baseEditor with suggestions := ⟨["a", "b"], 1⟩ } 2
    (by decide) (by decide) (by decide)

theorem and255_eq_mod (x : Nat) : x &&& 255 = x % 256 := by
  have h : (255 : Nat) = 2 ^ 8 - 1 := by norm_num
  rw [h, Nat.and_pow_two_sub_one_eq_mod]

/-- C9: the colour escape encoding of `inline_emitcolor`.  Negative codes
emit nothing; `0-7` emit `CSI 30+code m`; `8-15` emit `CSI 90+(code-8) m`;
`16-255` emit `CSI 38;5;code m`; every code with bit `0x01000000` set emits
`CSI 38;2;R;G;B m` with the low 24 bits split as R, G, B. -/
theorem inline_emitcolor_spec :
    (∀ c : Int, c < 0 → inline_emitcolor c = none) ∧
    (∀ n : Nat, n < 8 →
        inline_emitcolor (n : Int) = some ("\x1b[" ++ toString (30 + n) ++ "m")) ∧
    (∀ n : Nat, 8 ≤ n → n < 16 →
        inline_emitcolor (n : Int) = some ("\x1b[" ++ toString (90 + (n - 8)) ++ "m")) ∧
    (∀ n : Nat, 16 ≤ n → n ≤ 255 →
        inline_emitcolor (n : Int) = some ("\x1b[38;5;" ++ toString n ++ "m")) ∧
    (∀ n : Nat, n.testBit 24 = true →
        inline_emitcolor (n : Int) =
          some ("\x1b[38;2;" ++ toString ((n >>> 16) % 256) ++ ";" ++
            toString ((n >>> 8) % 256) ++ ";" ++ toString (n % 256) ++ "m")) := by
  refine ⟨?_, ?_, ?_, ?_, ?_⟩
  · intro c hc
    unfold inline_emitcolor
    rw [if_pos hc]
  · intro n h8
    interval_cases n <;> rfl
  · intro n h8 h16
    interval_cases n <;> rfl
  · intro n h16 h255
    unfold inline_emitcolor
    rw [if_neg (by omega : ¬ (n : Int) < 0)]
    dsimp only
    have ht : ((n : Int)).toNat = n := by omega
    rw [ht, if_neg (by omega), if_pos (by omega)]
  · intro n hbit
    have hge : 2 ^ 24 ≤ n := Nat.testBit_implies_ge hbit
    unfold inline_emitcolor
    rw [if_neg (by omega : ¬ (n : Int) < 0)]
    dsimp only
    have ht : ((n : Int)).toNat = n := by omega
    rw [ht, if_neg (by norm_num at hge ⊢; omega), if_neg (by norm_num at hge ⊢; omega)]
    rw [and255_eq_mod, and255_eq_mod, and255_eq_mod]

/-- Witness for C9 at one code of each class. -/
theorem inline_emitcolor_spec_witness :
    inline_emitcolor (-1) = none ∧
    inline_emitcolor ((5 : Nat) : Int) = some ("\x1b[" ++ toString (30 + 5) ++ "m") ∧
    inline_emitcolor ((12 : Nat) : Int) = some ("\x1b[" ++ toString (90 + (12 - 8)) ++ "m") ∧
    inline_emitcolor ((200 : Nat) : Int) = some ("\x1b[38;5;" ++ toString (200 : Nat) ++ "m") ∧
    inline_emitcolor ((0x01FF00FF : Nat) : Int) =
      some ("\x1b[38;2;" ++ toString (((0x01FF00FF : Nat) >>> 16) % 256) ++ ";" ++
        toString (((0x01FF00FF : Nat) >>> 8) % 256) ++ ";" ++
        toString ((0x01FF00FF : Nat) % 256) ++ "m") :=
  ⟨inline_emitcolor_spec.1 (-1) (by decide),
   inline_emitcolor_spec.2.1 5 (by decide),
   inline_emitcolor_spec.2.2.1 12 (by decide) (by decide),
   inline_emitcolor_spec.2.2.2.1 200 (by decide) (by decide),
   inline_emitcolor_spec.2.2.2.2 0x01FF00FF (by decide)⟩

theorem popfront_items (l : inline_stringlist) :
    (inline_stringlist_popfront l).items = l.items.tail := by
  unfold inline_stringlist_popfront
  split
  · rename_i h
    rw [List.length_eq_zero] at h
    rw [h]
    rfl
  · rfl

@[simp] theorem popfront_index (l : inline_stringlist) :
    (inline_stringlist_popfront l).index = l.index := by
  unfold inline_stringlist_popfront
  split
  · rfl
  · rfl

/-- The trimming loop leaves at most `m` entries when `m` is positive and
the loop bound covers the list. -/
theorem trimHistoryGo_length (m : Int) (hm : 0 < m) :
    ∀ fuel l, l.items.length ≤ fuel →
      ((trimHistoryGo fuel l m).items.length : Int) ≤ m := by
  intro fuel
  induction fuel with
  | zero =>
      intro l hl
      unfold trimHistoryGo
      omega
  | succ fuel ih =>
      intro l hl
      unfold trimHistoryGo
      split
      · apply ih
        rw [popfront_items, List.length_tail]
        omega
      · rename_i h
        omega

/-- The trimming loop preserves adjacent-distinctness. -/
theorem trimHistoryGo_chain (m : Int) :
    ∀ fuel l, List.Chain' (· ≠ ·) l.items →
      List.Chain' (· ≠ ·) (trimHistoryGo fuel l m).items := by
  intro fuel
  induction fuel with
  | zero => intro l h; exact h
  | succ fuel ih =>
      intro l h
      unfold trimHistoryGo
      split
      · apply ih
        rw [popfront_items]
        exact h.tail
      · exact h

/-- `inline_addhistory` preserves the history invariant. -/
theorem inline_addhistory_histInv (e : Editor) (entry : Option String)
    (h : histInv e) : histInv (inline_addhistory e entry).2 := by
  obtain ⟨hcnt, hchain⟩ := h
  unfold inline_addhistory
  cases entry with
  | none => exact ⟨hcnt, hchain⟩
  | some s =>
      dsimp only
      split
      · exact ⟨hcnt, hchain⟩
      · split
        · exact ⟨hcnt, hchain⟩
        · rename_i hfirst hdup
          dsimp only
          have hchain2 : List.Chain' (· ≠ ·) (e.history.items ++ [s]) := by
            rw [List.chain'_append]
            refine ⟨hchain, List.chain'_singleton s, ?_⟩
            intro x hx y hy
            simp at hy
            subst hy
            intro hxy
            subst hxy
            exact hdup hx
          have hadd : (inline_stringlist_add e.history s).items = e.history.items ++ [s] := rfl
          unfold histInv
          dsimp only
          constructor
          · intro hpos
            have hlen := hcnt hpos
            split
            · rename_i hcap
              rw [popfront_items, hadd, List.length_tail]
              simp
              omega
            · rename_i hcap
              rw [hadd] at hcap ⊢
              simp at hcap ⊢
              omega
          · split
            · rw [popfront_items, hadd]
              exact hchain2.tail
            · rw [hadd]
              exact hchain2

/-- `inline_sethistorylength` establishes the history invariant. -/
theorem inline_sethistorylength_histInv (e : Editor) (m : Int)
    (h : histInv e) : histInv (inline_sethistorylength e m) := by
  obtain ⟨hcnt, hchain⟩ := h
  unfold inline_sethistorylength
  dsimp only
  by_cases hm : 0 < m
  · rw [if_pos hm]
    unfold histInv
    dsimp only
    exact ⟨fun _ => trimHistoryGo_length m hm _ _ (le_refl _),
           trimHistoryGo_chain m _ _ hchain⟩
  · rw [if_neg hm]
    by_cases hz : m = 0
    · rw [if_pos hz]
      unfold histInv
      dsimp only
      exact ⟨fun _ => by simp [hz], by simp⟩
    · rw [if_neg hz]
      unfold histInv
      dsimp only
      exact ⟨fun hpos => absurd hpos hm, hchain⟩

/-- Any sequence of history operations preserves the history invariant. -/
theorem applyHistOps_histInv (ops : List HistOp) :
    ∀ e : Editor, histInv e → histInv (applyHistOps e ops) := by
  induction ops with
  | nil => intro e h; exact h
  | cons op ops ih =>
      intro e h
      unfold applyHistOps
      rw [List.foldl_cons]
      apply ih
      cases op with
      | add s => exact inline_addhistory_histInv e s h
      | setlen m => exact inline_sethistorylength_histInv e m h

/-- C5: `inline_addhistory` rejects null, empty and repeated-last entries
leaving the editor unchanged, appends on success removing the front entry
exactly when a positive cap is exceeded, and together with
`inline_sethistorylength` maintains over every operation sequence the
invariant that the count never exceeds a positive `max_length` and no two
adjacent entries are equal. -/
theorem inline_history_spec (e : Editor) (hinv : histInv e) :
    inline_addhistory e none = (false, e) ∧
    inline_addhistory e (some "") = (false, e) ∧
    (∀ s, e.history.items.getLast? = some s → inline_addhistory e (some s) = (false, e)) ∧
    (∀ s, ¬ s.isEmpty → e.maxHistoryLength ≠ 0 → e.history.items.getLast? ≠ some s →
        (inline_addhistory e (some s)).1 = true ∧
        (inline_addhistory e (some s)).2.history.items =
          (if 0 < e.maxHistoryLength ∧ e.maxHistoryLength < (e.history.items.length : Int) + 1
           then (e.history.items ++ [s]).tail else e.history.items ++ [s])) ∧
    (∀ ops, histInv (applyHistOps e ops)) := by
  refine ⟨rfl, ?_, ?_, ?_, fun ops => applyHistOps_histInv ops e hinv⟩
  · unfold inline_addhistory
    dsimp only
    rw [if_pos (Or.inl (by decide))]
  · intro s hlast
    unfold inline_addhistory
    dsimp only
    by_cases hfirst : (s.isEmpty ∨ e.maxHistoryLength = 0)
    · rw [if_pos hfirst]
    · rw [if_neg hfirst, if_pos hlast]
  · intro s hne hmax hdup
    unfold inline_addhistory
    dsimp only
    rw [if_neg (fun h => h.elim hne hmax), if_neg hdup]
    refine ⟨rfl, ?_⟩
    dsimp only
    by_cases hp : 0 < e.maxHistoryLength ∧
        e.maxHistoryLength < (e.history.items.length : Int) + 1
    · rw [if_pos hp]
      rw [if_pos (by unfold inline_stringlist_add; dsimp only; simp; omega)]
      rw [popfront_items]
      rfl
    · rw [if_neg hp]
      rw [if_neg (by unfold inline_stringlist_add; dsimp only; simp; omega)]
      rfl

/-- Witness for C5: a concrete one-entry history with cap 1 satisfies the
invariant and accepts a new distinct entry. -/
theorem inline_history_spec_witness :
    histInv { baseEditor with history := ⟨["a"], -1⟩, maxHistoryLength := 1 } ∧
    (inline_addhistory { baseEditor with history := ⟨["a"], -1⟩, maxHistoryLength := 1 }
      (some "b")).1 = true :=
  ⟨by decide,
   ((inline_history_spec { baseEditor with history := ⟨["a"], -1⟩, maxHistoryLength := 1 }
      (by decide)).2.2.2.1 "b" (by decide) (by decide) (by decide)).1⟩

/-- The gathering loop of suggestion generation appends exactly the
sequence the enumerator yields, and leaves the current index alone. -/
theorem gatherSuggestions_spec (host : Nat → Option (String × Nat)) :
    ∀ fuel idx L l, enumSeq host fuel idx = some L →
      (gatherSuggestions host fuel idx l).items = l.items ++ L ∧
      (gatherSuggestions host fuel idx l).index = l.index := by
  intro fuel
  induction fuel with
  | zero =>
      intro idx L l h
      simp [enumSeq] at h
  | succ fuel ih =>
      intro idx L l h
      unfold enumSeq at h
      unfold gatherSuggestions
      cases hh : host idx with
      | none =>
          rw [hh] at h
          dsimp only at h ⊢
          simp at h
          subst h
          simp
      | some pr =>
          obtain ⟨str, idx1⟩ := pr
          rw [hh] at h
          dsimp only at h ⊢
          cases henum : enumSeq host fuel idx1 with
          | none => rw [henum] at h; simp at h
          | some L2 =>
              rw [henum] at h
              simp at h
              subst h
              have hr := ih idx1 L2 (inline_stringlist_add l str) henum
              constructor
              · rw [hr.1]
                show (l.items ++ [str]) ++ L2 = l.items ++ (str :: L2)
                simp
              · rw [hr.2]
                rfl

/-- C4: with a completion callback installed, regenerating suggestions
consults the host enumerator exactly when the cursor is at the end of the
buffer and no selection is active — in the other cases the result does not
depend on the host at all and the suggestion list is left cleared.  When
the enumerator runs, the iteration index starts at 0, every suffix it
returns before null is appended to the suggestion list, and afterwards the
current index is 0 when at least one suggestion was produced while
otherwise the suggestion list is empty.  (`fuel` bounds the host calls of
the model; `hterm` states that the enumerator reaches null within it.) -/
theorem inline_generatesuggestions_spec (e : Editor) (host : Nat → Option (String × Nat))
    (fuel : Nat) (L : List String) (hc : e.complete = some host)
    (hterm : enumSeq host fuel 0 = some L) :
    ((e.selection ≠ none ∨ e.cursor ≠ e.graphemeCount) →
        (inline_generatesuggestions fuel e).suggestions = ⟨[], -1⟩ ∧
        (∀ host2, inline_generatesuggestions fuel { e with complete := some host2 } =
            { inline_generatesuggestions fuel e with complete := some host2 })) ∧
    (e.selection = none → e.cursor = e.graphemeCount →
        (inline_generatesuggestions fuel e).suggestions.items = L ∧
        (L ≠ [] → (inline_generatesuggestions fuel e).suggestions.index = 0) ∧
        (L = [] → (inline_generatesuggestions fuel e).suggestions = ⟨[], -1⟩)) := by
  have he : { e with complete := some host } = e := by
    rw [← hc]
  have hgen_false : (e.selection ≠ none ∨ e.cursor ≠ e.graphemeCount) →
      ∀ h2 : Nat → Option (String × Nat),
        inline_generatesuggestions fuel { e with complete := some h2 } =
          { e with complete := some h2, suggestions := ⟨[], -1⟩ } := by
    intro hg h2
    unfold inline_generatesuggestions
    dsimp only
    by_cases hsel : e.selection = none
    · rcases hg with hg | hg
      · exact absurd hsel hg
      · rw [if_neg (fun hcond => hcond hsel)]
        rw [if_neg (show ¬ inline_atend _ by unfold inline_atend; dsimp only; exact hg)]
    · rw [if_pos hsel]
  constructor
  · intro hg
    have hee : inline_generatesuggestions fuel e =
        { e with complete := some host, suggestions := ⟨[], -1⟩ } := by
      rw [← he]
      exact hgen_false hg host
    constructor
    · rw [hee]
    · intro host2
      rw [hgen_false hg host2, hee]
  · intro hsel hcur
    have hgeneq : inline_generatesuggestions fuel e =
        { e with suggestions := (if 0 < (gatherSuggestions host fuel 0 ⟨[], -1⟩).items.length then { gatherSuggestions host fuel 0 ⟨[], -1⟩ with index := 0 } else gatherSuggestions host fuel 0 ⟨[], -1⟩) } := by
      unfold inline_generatesuggestions
      rw [hc]
      dsimp only
      rw [if_neg (fun hcond => hcond hsel)]
      rw [if_pos (show inline_atend _ by unfold inline_atend; dsimp only; exact hcur)]
    have hg := gatherSuggestions_spec host fuel 0 L ⟨[], -1⟩ hterm
    dsimp only at hg
    rw [List.nil_append] at hg
    refine ⟨?_, ?_, ?_⟩
    · rw [hgeneq]
      dsimp only
      split
      · exact hg.1
      · exact hg.1
    · intro hL
      rw [hgeneq]
      dsimp only
      rw [if_pos (by rw [hg.1]; exact List.length_pos.mpr hL)]
    · intro hL
      rw [hgeneq]
      dsimp only
      rw [if_neg (by rw [hg.1, hL]; simp)]
      have hx : ∀ x : inline_stringlist, x.items = [] → x.index = -1 → x = ⟨[], -1⟩ := by
        intro x h1 h2
        cases x
        simp_all
      exact hx _ (by rw [hg.1, hL]) hg.2

/-- Witness for C4 on a concrete host enumerator that yields one suffix:
with the cursor at the end and no selection, the suggestion list becomes
exactly that suffix. -/
theorem inline_generatesuggestions_spec_witness :
    (inline_generatesuggestions 2 { baseEditor with complete := some (fun i => if i = 0 then some ("pedef", 1) else none) }).suggestions.items = ["pedef"] :=
  ((inline_generatesuggestions_spec
      { baseEditor with complete := some (fun i => if i = 0 then some ("pedef", 1) else none) }
      (fun i => if i = 0 then some ("pedef", 1) else none) 2 ["pedef"] rfl rfl).2 rfl rfl).1
